import Mathlib

/-!
Verification of the csv-to-json-translations tool (src/translate.js).

The JavaScript source is shallowly embedded: JSON values become the inductive
type `JVal`, JavaScript objects become association lists kept in the object's
enumeration order, and code that can throw a `TypeError` is modelled in the
`Except Unit` monad.  String primitives (`split`, `replace`, `includes`,
`startsWith`, `parseInt`, number-to-string conversion) are re-implemented
over `List Char` so that every definition evaluates inside the kernel.
-/

/-- Model of a JavaScript/JSON value.  `null` is separate because
`typeof null === "object"` drives control flow in the source. -/
inductive JVal where
  | str (s : String)
  | num (n : Int)
  | bool (b : Bool)
  | null
  | obj (fields : List (String × JVal))
  | arr (elems : List JVal)

/-- A flattened document: dot-joined path to leaf value, in enumeration order. -/
abbrev FlatMap := List (String × JVal)

mutual
def beqJ : JVal → JVal → Bool
  | .str s, .str t => s == t
  | .num n, .num m => n == m
  | .bool b, .bool c => b == c
  | .null, .null => true
  | .obj fs, .obj gs => beqFields fs gs
  | .arr es, .arr ds => beqElems es ds
  | _, _ => false

def beqFields : List (String × JVal) → List (String × JVal) → Bool
  | [], [] => true
  | (k, v) :: r, (k2, v2) :: r2 => k == k2 && beqJ v v2 && beqFields r r2
  | _, _ => false

def beqElems : List JVal → List JVal → Bool
  | [], [] => true
  | v :: r, v2 :: r2 => beqJ v v2 && beqElems r r2
  | _, _ => false
end

mutual
theorem beqJ_iff : ∀ a b : JVal, beqJ a b = true ↔ a = b
  | .str s, b => by cases b <;> simp [beqJ]
  | .num n, b => by cases b <;> simp [beqJ]
  | .bool c, b => by cases b <;> simp [beqJ]
  | .null, b => by cases b <;> simp [beqJ]
  | .obj fs, b => by
    cases b <;> simp [beqJ]
    exact beqFields_iff fs _
  | .arr es, b => by
    cases b <;> simp [beqJ]
    exact beqElems_iff es _

theorem beqFields_iff : ∀ fs gs : List (String × JVal), beqFields fs gs = true ↔ fs = gs
  | [], gs => by cases gs <;> simp [beqFields]
  | (k, v) :: r, gs => by
    cases gs with
    | nil => simp [beqFields]
    | cons p r2 =>
      obtain ⟨k2, v2⟩ := p
      simp [beqFields, beqJ_iff v v2, beqFields_iff r r2]

theorem beqElems_iff : ∀ es ds : List JVal, beqElems es ds = true ↔ es = ds
  | [], ds => by cases ds <;> simp [beqElems]
  | v :: r, ds => by
    cases ds with
    | nil => simp [beqElems]
    | cons v2 r2 => simp [beqElems, beqJ_iff v v2, beqElems_iff r r2]
end

instance : DecidableEq JVal := fun a b =>
  decidable_of_iff (beqJ a b = true) (beqJ_iff a b)

instance {ε α : Type} [DecidableEq ε] [DecidableEq α] : DecidableEq (Except ε α) := fun a b =>
  match a, b with
  | .ok x, .ok y => decidable_of_iff (x = y) (by simp)
  | .error e, .error f => decidable_of_iff (e = f) (by simp)
  | .ok _, .error _ => isFalse (by simp)
  | .error _, .ok _ => isFalse (by simp)

/-! ## String primitives, re-implemented over `List Char` -/

/-- `s.split(sep)` for a one-character separator (the source only splits on
`"."` and on `path.sep`). -/
def splitCh (sep : Char) : List Char → List (List Char)
  | [] => [[]]
  | c :: rest =>
    if c = sep then [] :: splitCh sep rest
    else
      match splitCh sep rest with
      | [] => [[c]]
      | g :: gs => (c :: g) :: gs

/-- `parts.join(sep)` for a one-character separator. -/
def joinCh (sep : Char) : List (List Char) → List Char
  | [] => []
  | [g] => g
  | g :: gs => g ++ sep :: joinCh sep gs

/-- Index of the first occurrence of `pat` in a character list, if any
(JavaScript `String.prototype.indexOf`). -/
def findSub (pat : List Char) : List Char → Option Nat
  | [] => if pat = [] then some 0 else none
  | c :: rest =>
    if pat.isPrefixOf (c :: rest) then some 0
    else (findSub pat rest).map (· + 1)

/-- `s.split(sep)` lifted to `String`, one-character separator. -/
def jsSplit (sep : Char) (s : String) : List String :=
  (splitCh sep s.data).map String.mk

/-- `text.includes(sub)` from JavaScript. -/
def jsIncludes (s sub : String) : Bool :=
  (findSub sub.data s.data).isSome

/-- `s.startsWith(p)` from JavaScript. -/
def jsStartsWith (s p : String) : Bool :=
  p.data.isPrefixOf s.data

/-- `s.endsWith(p)` from JavaScript. -/
def jsEndsWith (s p : String) : Bool :=
  p.data.isSuffixOf s.data

/-- `s.slice(0, n)` from JavaScript. -/
def jsSlice (s : String) (n : Nat) : String :=
  String.mk (s.data.take n)

/-- Expansion of `$`-escapes in the replacement string of
`String.prototype.replace` with a string pattern: `$$`, `$&` (the match),
`$`&#96; (text before the match) and `$'` (text after); any other `$` is
literal. -/
def replSubst (matched before after : List Char) : List Char → List Char
  | [] => []
  | '$' :: '$' :: rest => '$' :: replSubst matched before after rest
  | '$' :: '&' :: rest => matched ++ replSubst matched before after rest
  | '$' :: '`' :: rest => before ++ replSubst matched before after rest
  | '$' :: '\'' :: rest => after ++ replSubst matched before after rest
  | c :: rest => c :: replSubst matched before after rest

/-- `s.replace(pat, rep)` with a string pattern: replaces only the first
occurrence, expanding `$`-escapes in the replacement. -/
def jsReplace (s pat rep : String) : String :=
  match findSub pat.data s.data with
  | none => s
  | some i =>
    let before := s.data.take i
    let after := s.data.drop (i + pat.data.length)
    String.mk (before ++ replSubst pat.data before after rep.data ++ after)

/-- Decimal digit string of a natural number (JavaScript number-to-string for
the array indices that appear here); fuel-based so it reduces in the kernel. -/
def natStrAux : Nat → Nat → List Char
  | 0, _ => []
  | fuel + 1, n =>
    if n < 10 then [Nat.digitChar n]
    else natStrAux fuel (n / 10) ++ [Nat.digitChar (n % 10)]

def natStr (n : Nat) : String :=
  String.mk (natStrAux (n + 1) n)

/-- Numeric value of a list of decimal digit characters. -/
def digitsVal : List Char → Nat → Nat
  | [], acc => acc
  | c :: rest, acc => digitsVal rest (acc * 10 + (c.toNat - '0'.toNat))

/-- Whitespace skipped by `parseInt`. -/
def jsSpace (c : Char) : Bool := c = ' ' ∨ c = '\t' ∨ c = '\n' ∨ c = '\r'

/-- The optional sign of `parseInt`. -/
def parseSign : List Char → Int × List Char
  | '-' :: rest => (-1, rest)
  | '+' :: rest => (1, rest)
  | cs => (1, cs)

/-- The optional `0x`/`0X` marker of `parseInt`. -/
def parseHexMark : List Char → Nat × List Char
  | '0' :: 'x' :: rest => (16, rest)
  | '0' :: 'X' :: rest => (16, rest)
  | cs => (10, cs)

def isDigitIn (base : Nat) (c : Char) : Bool :=
  if base = 16 then c.isDigit ∨ ('a' ≤ c ∧ c ≤ 'f') ∨ ('A' ≤ c ∧ c ≤ 'F')
  else c.isDigit

def hexDigitVal (c : Char) : Nat :=
  if c.isDigit then c.toNat - '0'.toNat
  else if 'a' ≤ c ∧ c ≤ 'f' then c.toNat - 'a'.toNat + 10
  else c.toNat - 'A'.toNat + 10

/-- `parseInt(s)` from JavaScript (radix 10 unless the string has an `0x`
marker): skip whitespace, optional sign, then the longest digit run;
`none` models `NaN`. -/
def jsParseInt (s : String) : Option Int :=
  let sc := parseSign (s.data.dropWhile jsSpace)
  let bc := parseHexMark sc.2
  let digs := bc.2.takeWhile (isDigitIn bc.1)
  if digs.isEmpty then none
  else some (sc.1 * (digs.foldl (fun acc c => acc * bc.1 + hexDigitVal c) 0 : Nat))

/-- A string is a canonical array-index key (the property deciding JavaScript
object key-enumeration order): the decimal representation of some
`n < 2^32 - 1` with no extra characters. -/
def isArrayIndex (s : String) : Bool :=
  !s.data.isEmpty && s.data.all Char.isDigit && natStr (digitsVal s.data 0) == s &&
    digitsVal s.data 0 < 4294967295

/-- Numeric sort key of an array-index key. -/
def keyNum (s : String) : Nat := digitsVal s.data 0

/-- Insertion sort of object fields by numeric key value (stable; array-index
keys are pairwise distinct numerically, so stability is irrelevant). -/
def insertByNum {α : Type} (p : String × α) : List (String × α) → List (String × α)
  | [] => [p]
  | q :: rest =>
    if keyNum q.1 ≤ keyNum p.1 then q :: insertByNum p rest
    else p :: q :: rest

def sortByNum {α : Type} : List (String × α) → List (String × α)
  | [] => []
  | p :: rest => insertByNum p (sortByNum rest)

/-- JavaScript own-property enumeration order of an object's entries:
array-index keys first in ascending numeric order, then the remaining keys
in insertion order.  `Object.keys`, `Object.values` and `Object.entries`
all enumerate in this order. -/
def jsEntries {α : Type} (fs : List (String × α)) : List (String × α) :=
  sortByNum (fs.filter fun p => isArrayIndex p.1) ++ fs.filter fun p => !isArrayIndex p.1

/-! ## Association-list (JavaScript object) operations -/

/-- Property lookup `o[k]`; `none` models `undefined`. -/
def lookupJs {α : Type} : List (String × α) → String → Option α
  | [], _ => none
  | (k, v) :: rest, key => if k = key then some v else lookupJs rest key

/-- Property assignment `o[k] = v`: updates in place if the key exists
(keeping its position), otherwise appends. -/
def insertJs {α : Type} : List (String × α) → String → α → List (String × α)
  | [], key, v => [(key, v)]
  | (k, w) :: rest, key, v =>
    if k = key then (key, v) :: rest else (k, w) :: insertJs rest key v

/-- `delete o[k]`. -/
def eraseJs {α : Type} : List (String × α) → String → List (String × α)
  | [], _ => []
  | (k, w) :: rest, key => if k = key then rest else (k, w) :: eraseJs rest key

/-- Object spread `{...a, ...b}`: each entry of `b` assigned into `a` in order. -/
def mergeJs {α : Type} (a b : List (String × α)) : List (String × α) :=
  b.foldl (fun acc p => insertJs acc p.1 p.2) a

/-- JavaScript truthiness of a value standing in a boolean position. -/
def truthy : JVal → Bool
  | .str s => !s.isEmpty
  | .num n => n ≠ 0
  | .bool b => b
  | .null => false
  | .obj _ => true
  | .arr _ => true

/-- Truthiness of a possibly-`undefined` property lookup. -/
def truthyOpt : Option JVal → Bool
  | none => false
  | some v => truthy v

/-- A string wrapped in `$...$` in the code's sense:
`startsWith("$") && endsWith("$")`. -/
def strWrapped (s : String) : Bool := jsStartsWith s "$" && jsEndsWith s "$"

def valWrapped : JVal → Bool
  | .str s => strWrapped s
  | _ => false

def optWrapped : Option JVal → Bool
  | some b => valWrapped b
  | none => false

/-! ## The flatten / unflatten component (`src/translate.js` lines 20-75) -/

/-- `typeof v === "object"` in JavaScript. -/
def isObjType : JVal → Bool
  | .obj _ => true
  | .arr _ => true
  | .null => true
  | _ => false

/-- Path joining of `flattenObject`:
`(prefix.length ? prefix + "." : "") + key`. -/
def joinPath (pre k : String) : String :=
  (if pre.isEmpty then "" else pre ++ ".") ++ k

mutual
/-- `flattenObject(obj, prefix)` from the source.  `Object.entries(null)`
throws, which is the `.error` case; non-object roots enumerate like
JavaScript primitives do (strings into characters, others empty). -/
def flattenObject : JVal → String → Except Unit FlatMap
  | .null, _ => .error ()
  | .obj fs, pre => flattenList fs pre []
  | .arr es, pre => flattenArr es 0 pre []
  | .str s, pre => .ok (flattenChars s.data 0 pre)
  | .num _, _ => .ok []
  | .bool _, _ => .ok []

/-- The `reduce` over `Object.entries` of an object: object-typed values are
spread-merged after a recursive call, others are recorded as leaves. -/
def flattenList : List (String × JVal) → String → FlatMap → Except Unit FlatMap
  | [], _, acc => .ok acc
  | (k, v) :: rest, pre, acc =>
    if isObjType v then
      match flattenObject v (joinPath pre k) with
      | .error e => .error e
      | .ok sub => flattenList rest pre (mergeJs acc sub)
    else flattenList rest pre (insertJs acc (joinPath pre k) v)

/-- Same reduce for an array value, whose entries are `("0", e0), ...`. -/
def flattenArr : List JVal → Nat → String → FlatMap → Except Unit FlatMap
  | [], _, _, acc => .ok acc
  | v :: rest, i, pre, acc =>
    if isObjType v then
      match flattenObject v (joinPath pre (natStr i)) with
      | .error e => .error e
      | .ok sub => flattenArr rest (i + 1) pre (mergeJs acc sub)
    else flattenArr rest (i + 1) pre (insertJs acc (joinPath pre (natStr i)) v)

/-- Entries of a string primitive: index to one-character string. -/
def flattenChars : List Char → Nat → String → FlatMap
  | [], _, _ => []
  | c :: rest, i, pre => (joinPath pre (natStr i), .str (String.mk [c])) :: flattenChars rest (i + 1) pre
end

/-! ## Enumeration-order normal form

A JavaScript object's observable field order is its enumeration order, so a
`JVal` corresponds to a JavaScript value exactly when every object already
stores its fields in that order.  `norm` restores the invariant after
`unflattenObject` builds objects by raw insertion. -/

mutual
def norm : JVal → JVal
  | .str s => .str s
  | .num n => .num n
  | .bool b => .bool b
  | .null => .null
  | .obj fs => .obj (jsEntries (normFields fs))
  | .arr es => .arr (normElems es)

def normFields : List (String × JVal) → List (String × JVal)
  | [] => []
  | (k, v) :: rest => (k, norm v) :: normFields rest

def normElems : List JVal → List JVal
  | [] => []
  | v :: rest => norm v :: normElems rest
end

mutual
/-- The value is stored in enumeration order at every object node. -/
def normedV : JVal → Bool
  | .str _ => true
  | .num _ => true
  | .bool _ => true
  | .null => true
  | .obj fs => decide (jsEntries fs = fs) && normedFields fs
  | .arr es => normedElems es

def normedFields : List (String × JVal) → Bool
  | [] => true
  | (_, v) :: rest => normedV v && normedFields rest

def normedElems : List JVal → Bool
  | [] => true
  | v :: rest => normedV v && normedElems rest
end

/-! ## Array-like detection and conversion (`src/translate.js` lines 37-51) -/

/-- `Object.keys(obj).every((key, i) => parseInt(key) === i)` applied to a
key list already in enumeration order. -/
def arrayLikeKeys (i : Nat) : List String → Bool
  | [] => true
  | k :: rest => jsParseInt k == some (Int.ofNat i) && arrayLikeKeys (i + 1) rest

def arrayLikeFields (fs : List (String × JVal)) : Bool :=
  arrayLikeKeys 0 ((jsEntries fs).map (·.1))

/-- `isArrayLikeObject` from the source; `Object.keys(null)` throws.  Arrays,
strings and other primitives trivially satisfy the `every`. -/
def isArrayLikeObject : JVal → Except Unit Bool
  | .null => .error ()
  | .obj fs => .ok (arrayLikeFields fs)
  | .arr _ => .ok true
  | .str _ => .ok true
  | .num _ => .ok true
  | .bool _ => .ok true

mutual
/-- `convertArrayLikeObjects(obj)` from the source, as a pure function on the
value whose entries it mutates.  The argument itself is never turned into an
array; only its property values are. -/
def convertRoot : JVal → Except Unit JVal
  | .obj fs =>
    (match convFields fs with
     | .error e => .error e
     | .ok gs => .ok (.obj gs))
  | .arr es =>
    (match convElemsVals es with
     | .error e => .error e
     | .ok ds => .ok (.arr ds))
  | .null => .error ()
  | v => .ok v

def convFields : List (String × JVal) → Except Unit (List (String × JVal))
  | [] => .ok []
  | (k, v) :: rest =>
    match convValue v with
    | .error e => .error e
    | .ok v2 =>
      match convFields rest with
      | .error e => .error e
      | .ok r2 => .ok ((k, v2) :: r2)

def convElemsVals : List JVal → Except Unit (List JVal)
  | [] => .ok []
  | v :: rest =>
    match convValue v with
    | .error e => .error e
    | .ok v2 =>
      match convElemsVals rest with
      | .error e => .error e
      | .ok r2 => .ok (v2 :: r2)

/-- Treatment of one property value: array-like objects are replaced by
`Object.values(value)` whose elements are then each re-visited as roots;
other objects are recursed into; primitives are left alone. -/
def convValue : JVal → Except Unit JVal
  | .null => .error ()
  | .obj fs =>
    if arrayLikeFields fs then
      match convRootVals fs with
      | .error e => .error e
      | .ok vs => .ok (.arr vs)
    else
      match convFields fs with
      | .error e => .error e
      | .ok gs => .ok (.obj gs)
  | .arr es =>
    (match convRootElems es with
     | .error e => .error e
     | .ok ds => .ok (.arr ds))
  | v => .ok v

def convRootVals : List (String × JVal) → Except Unit (List JVal)
  | [] => .ok []
  | (_, v) :: rest =>
    match convertRoot v with
    | .error e => .error e
    | .ok v2 =>
      match convRootVals rest with
      | .error e => .error e
      | .ok r2 => .ok (v2 :: r2)

def convRootElems : List JVal → Except Unit (List JVal)
  | [] => .ok []
  | v :: rest =>
    match convertRoot v with
    | .error e => .error e
    | .ok v2 =>
      match convRootElems rest with
      | .error e => .error e
      | .ok r2 => .ok (v2 :: r2)
end

/-! ## `unflattenObject` (`src/translate.js` lines 53-75) -/

/-- The key walk of `unflattenObject` for one flat key: walk or create plain
objects down to the second-to-last segment, then assign.  Walking into a
truthy non-object silently does nothing (sloppy-mode property writes on
primitives are ignored); a falsy slot is overwritten with `{}`. -/
def setPath : JVal → List String → JVal → JVal
  | v, [], _ => v
  | .obj fs, [k], leaf => .obj (insertJs fs k leaf)
  | .obj fs, k :: k2 :: rest, leaf =>
    (match lookupJs fs k with
     | some u =>
       if truthy u then .obj (insertJs fs k (setPath u (k2 :: rest) leaf))
       else .obj (insertJs fs k (setPath (.obj []) (k2 :: rest) leaf))
     | none => .obj (insertJs fs k (setPath (.obj []) (k2 :: rest) leaf)))
  | v, _ :: _, _ => v

/-- The object built by the `forEach` of `unflattenObject` before array
conversion, iterating the flat keys in enumeration order. -/
def buildFlat (m : FlatMap) : JVal :=
  (jsEntries m).foldl (fun acc p => setPath acc (jsSplit '.' p.1) p.2) (.obj [])

/-- `unflattenObject` from the source: build the nested object, view it in
enumeration order, then run `convertArrayLikeObjects` over it. -/
def unflattenObject (m : FlatMap) : Except Unit JVal :=
  convertRoot (norm (buildFlat m))

/-! ## Locale and brand addressing (`src/translate.js` lines 77-99) -/

/-- `path.basename(p)`: the part after the last separator. -/
def baseName (p : String) : String :=
  match (jsSplit '/' p).reverse with
  | [] => ""
  | s :: _ => s

/-- `path.basename(p, ".json")`: the base name with a trailing `.json`
stripped when it is a proper suffix. -/
def baseNameNoExt (p : String) : String :=
  let b := baseName p
  if jsEndsWith b ".json" ∧ b ≠ ".json" then String.mk (b.data.take (b.data.length - 5)) else b

/-- `path.basename(path.dirname(p))`: the name of the immediate parent
directory (`"."` when the path has no separator). -/
def parentDirName (p : String) : String :=
  match (jsSplit '/' p).reverse with
  | _ :: parent :: _ => parent
  | _ => "."

/-- `getFileLocale(filePath, source)` from the source; the switch falls
through to `return null` for unknown modes, modelled as `none`. -/
def getFileLocale (filePath source : String) : Option String :=
  if source = "filename" then some (baseNameNoExt filePath)
  else if source = "dirname" then some (parentDirName filePath)
  else none

/-- `getFileBrand(filePath, brandPosition)`: segment of the reversed
separator-split path; `undefined` (out of range) is `none`. -/
def getFileBrand (filePath : String) (brandPosition : Nat) : Option String :=
  (jsSplit '/' filePath).reverse.get? brandPosition

/-- One-character join of path segments. -/
def joinStr (sep : Char) (xs : List String) : String :=
  String.mk (joinCh sep (xs.map String.data))

/-- `setFileBrand(filePath, brandPosition, brand)` from the source. -/
def setFileBrand (filePath : String) (brandPosition : Nat) (brand : String) : String :=
  joinStr '/' (((jsSplit '/' filePath).reverse.set brandPosition brand).reverse)

/-! ## Write-back (`src/translate.js` lines 101-111) -/

/-- `writeChanges(files, changedFiles)`: serializes and writes every loaded
document, in enumeration order; the result is the list of (path, tree
written).  `changedFiles` is consulted only for the diagnostic count, never
to select what is written. -/
def writeGo : List (String × FlatMap) → Except Unit (List (String × JVal))
  | [] => .ok []
  | (p, c) :: rest =>
    match unflattenObject c with
    | .error e => .error e
    | .ok v =>
      match writeGo rest with
      | .error e => .error e
      | .ok vs => .ok ((p, v) :: vs)

def writeChanges (files : List (String × FlatMap)) (changedFiles : List String) :
    Except Unit (List (String × JVal)) :=
  let _ := changedFiles.length
  writeGo (jsEntries files)

/-! ## Matching (`src/translate.js` lines 10-18) -/

/-- `findPaths(text, allTexts)`: keys whose value is `text` or `$text$`. -/
def findPaths (text : String) (allTexts : FlatMap) : List String :=
  ((jsEntries allTexts).filter fun p =>
    decide (p.2 = .str ("$" ++ text ++ "$")) || decide (p.2 = .str text)).map (·.1)

/-- `findKeys(text, allTexts)`: keys one of whose dot-separated segments is
`text` or `$text$`. -/
def findKeys (text : String) (allTexts : FlatMap) : List String :=
  ((jsEntries allTexts).map (·.1)).filter fun key =>
    (jsSplit '.' key).any fun part =>
      decide (part = "$" ++ text ++ "$") || decide (part = text)

/-! ## The translate pipeline, per destination document
(`src/translate.js` lines 215-294) -/

/-- The value-substitution part (lines 216-259): locale gate, document
search, core fallback, substitution.  Calling `.startsWith` on a `null`
locale throws. -/
def translateValuesStep (fileLocaleSource locale sourceText translation : String)
    (core : FlatMap) (filePath : String) (content : FlatMap) :
    Except Unit (FlatMap × Bool) :=
  match getFileLocale filePath fileLocaleSource with
  | none => .error ()
  | some fl =>
    if jsStartsWith fl locale then
      let p1 := findPaths sourceText content
      let paths :=
        if p1.isEmpty && jsIncludes filePath "core" && !jsIncludes fl "-" then
          findPaths sourceText core
        else p1
      let content2 := paths.foldl (fun c p => insertJs c p (.str translation)) content
      .ok (content2, !paths.isEmpty)
    else .ok (content, false)

/-- One key rename (lines 276-290): `translationKey.replace(source, translation)`,
move the value when the name changed. -/
def renameKey (sourceText translation : String) (c : FlatMap) (k : String) : FlatMap :=
  let tk := jsReplace k sourceText translation
  if tk ≠ k then eraseJs (insertJs c tk ((lookupJs c k).getD .null)) k else c

/-- The key-translation part (lines 261-292): find matching keys once, then
rename each in order. -/
def translateKeysStep (sourceText translation : String) (content : FlatMap) :
    FlatMap × Bool :=
  let ks := findKeys sourceText content
  (ks.foldl (renameKey sourceText translation) content,
   ks.any fun k => jsReplace k sourceText translation ≠ k)

/-- The whole per-document body of the translate loop (lines 215-293). -/
def processFile (fileLocaleSource locale sourceText translation : String)
    (translateKeysFlag : Bool) (core : FlatMap) (filePath : String) (content : FlatMap) :
    Except Unit (FlatMap × Bool) :=
  match translateValuesStep fileLocaleSource locale sourceText translation core filePath content with
  | .error e => .error e
  | .ok (content2, changed2) =>
    match getFileLocale filePath fileLocaleSource with
    | none => .error ()
    | some fl =>
      if jsStartsWith fl locale ∧ translateKeysFlag then
        let (content3, changed3) := translateKeysStep sourceText translation content2
        .ok (content3, changed2 || changed3)
      else .ok (content2, changed2)

/-! ## The normalise pipeline (`src/translate.js` lines 301-412) -/

/-- The candidate base-file list of `normalise` (lines 357-369), given the
pieces derived from the document path; filtered by `fs.existsSync`,
modelled as the predicate `exB` over the file system. -/
def baseFilesOf (filePath locale lang : String) (brand : Option String)
    (brandPosition : Nat) (baseBrandName : String) (exB : String → Bool) : List String :=
  let baseFilePath := setFileBrand filePath brandPosition baseBrandName
  let regional := lang ≠ locale
  ((if brand ≠ some baseBrandName then [baseFilePath] else []) ++
    (if regional then
      (if brand ≠ some baseBrandName then [jsReplace baseFilePath locale lang] else []) ++
        [jsReplace filePath locale lang]
     else [])).filter exB

/-- The duplicate test for one entry against one base document's content
(inside lines 371-383): `files[bp][key] === value ||
(value.startsWith("$") && value.endsWith("$") && files[bp][key] &&
!(files[bp][key].startsWith("$") && files[bp][key].endsWith("$")))`.
Method calls on non-strings throw. -/
def entryDupAgainst (bc : FlatMap) (k : String) : JVal → Except Unit Bool
  | .str s =>
    if lookupJs bc k = some (.str s) then .ok true
    else if strWrapped s then
      if truthyOpt (lookupJs bc k) then
        match lookupJs bc k with
        | some (.str bs) => .ok (!strWrapped bs)
        | _ => .error ()
      else .ok false
    else .ok false
  | v => if lookupJs bc k = some v then .ok true else .error ()

/-- `baseFiles.some(bp => ...)` for one entry; looking up a base path that
was never loaded dereferences `undefined` and throws. -/
def entryDup (files : List (String × FlatMap)) : List String → String → JVal → Except Unit Bool
  | [], _, _ => .ok false
  | bp :: rest, k, v =>
    match lookupJs files bp with
    | none => .error ()
    | some bc =>
      match entryDupAgainst bc k v with
      | .error e => .error e
      | .ok true => .ok true
      | .ok false => entryDup files rest k v

/-- `Object.entries(fileContent).filter(...)` with a possibly-throwing
predicate. -/
def dupEntries (files : List (String × FlatMap)) (bps : List String) :
    List (String × JVal) → Except Unit (List (String × JVal))
  | [] => .ok []
  | (k, v) :: rest =>
    match entryDup files bps k v with
    | .error e => .error e
    | .ok d =>
      match dupEntries files bps rest with
      | .error e => .error e
      | .ok tail => .ok (if d then (k, v) :: tail else tail)

/-- The per-document body of `normalise` (lines 351-409): derive locale
(throws when `null`), language, brand, compute base files, collect and
delete duplicates. -/
def normaliseDoc (fileLocaleSource : String) (brandPosition : Nat) (baseBrandName : String)
    (exB : String → Bool) (files : List (String × FlatMap)) (filePath : String)
    (content : FlatMap) : Except Unit (FlatMap × Bool) :=
  match getFileLocale filePath fileLocaleSource with
  | none => .error ()
  | some locale =>
    let lang := jsSlice locale 2
    let brand := getFileBrand filePath brandPosition
    let baseFiles := baseFilesOf filePath locale lang brand brandPosition baseBrandName exB
    match dupEntries files baseFiles (jsEntries content) with
    | .error e => .error e
    | .ok dups => .ok (dups.foldl (fun c p => eraseJs c p.1) content, !dups.isEmpty)

/-- The document loop of `normalise`, threading the live `files` map and the
changed list. -/
def normaliseGo (fileLocaleSource : String) (brandPosition : Nat) (baseBrandName : String)
    (exB : String → Bool) : List (String × FlatMap) →
    List (String × FlatMap) × List String → Except Unit (List (String × FlatMap) × List String)
  | [], st => .ok st
  | (p, c) :: rest, (files, changed) =>
    match normaliseDoc fileLocaleSource brandPosition baseBrandName exB files p c with
    | .error e => .error e
    | .ok (c2, ch) =>
      normaliseGo fileLocaleSource brandPosition baseBrandName exB rest
        (insertJs files p c2, if ch ∧ ¬ changed.contains p then changed ++ [p] else changed)

/-- The whole mutation pass of `normalise` over the loaded documents
(everything between loading and `writeChanges`). -/
def normalisePass (fileLocaleSource : String) (brandPosition : Nat) (baseBrandName : String)
    (exB : String → Bool) (files : List (String × FlatMap)) :
    Except Unit (List (String × FlatMap) × List String) :=
  normaliseGo fileLocaleSource brandPosition baseBrandName exB (jsEntries files) (files, [])


/-! ## Basic lemmas about the embedded object operations -/

theorem lookupJs_eq_none {α : Type} (m : List (String × α)) (k : String)
    (h : k ∉ m.map Prod.fst) : lookupJs m k = none := by
  induction m with
  | nil => simp [lookupJs]
  | cons p rest ih =>
    obtain ⟨k2, w⟩ := p
    simp only [List.map_cons, List.mem_cons, not_or] at h
    have h2 : k2 ≠ k := fun e => h.1 e.symm
    simp [lookupJs, h2, ih h.2]

theorem lookupJs_insertJs_self {α : Type} (m : List (String × α)) (k : String) (v : α) :
    lookupJs (insertJs m k v) k = some v := by
  induction m with
  | nil => simp [insertJs, lookupJs]
  | cons p rest ih =>
    obtain ⟨k2, w⟩ := p
    by_cases h : k2 = k <;> simp [insertJs, lookupJs, h, ih]

theorem lookupJs_insertJs_ne {α : Type} (m : List (String × α)) (k q : String) (v : α)
    (h : q ≠ k) : lookupJs (insertJs m k v) q = lookupJs m q := by
  have hk : ¬ (k = q) := fun e => h e.symm
  induction m with
  | nil => simp [insertJs, lookupJs, hk]
  | cons p rest ih =>
    obtain ⟨k2, w⟩ := p
    by_cases h2 : k2 = k
    · subst h2
      simp [insertJs, lookupJs, hk]
    · simp [insertJs, h2, lookupJs, ih]

theorem lookupJs_eraseJs_self {α : Type} (m : List (String × α)) (k : String)
    (hnd : (m.map Prod.fst).Nodup) : lookupJs (eraseJs m k) k = none := by
  induction m with
  | nil => simp [eraseJs, lookupJs]
  | cons p rest ih =>
    obtain ⟨k2, w⟩ := p
    simp only [List.map_cons, List.nodup_cons] at hnd
    by_cases h : k2 = k
    · subst h
      simp only [eraseJs, if_pos rfl]
      exact lookupJs_eq_none rest k2 hnd.1
    · simp [eraseJs, h, lookupJs, ih hnd.2]

theorem lookupJs_eraseJs_ne {α : Type} (m : List (String × α)) (k q : String)
    (h : q ≠ k) : lookupJs (eraseJs m k) q = lookupJs m q := by
  induction m with
  | nil => simp [eraseJs, lookupJs]
  | cons p rest ih =>
    obtain ⟨k2, w⟩ := p
    by_cases h2 : k2 = k
    · subst h2
      have hk : ¬ (k2 = q) := fun e => h e.symm
      simp [eraseJs, lookupJs, hk]
    · simp [eraseJs, h2, lookupJs, ih]

theorem insertJs_map_fst_of_mem {α : Type} (m : List (String × α)) (k : String) (v : α)
    (h : k ∈ m.map Prod.fst) : (insertJs m k v).map Prod.fst = m.map Prod.fst := by
  induction m with
  | nil => simp at h
  | cons p rest ih =>
    obtain ⟨k2, w⟩ := p
    by_cases h2 : k2 = k
    · simp [insertJs, h2]
    · simp only [List.map_cons, List.mem_cons] at h
      rcases h with h1 | h1
      · exact absurd h1.symm h2
      · simp [insertJs, h2, ih h1]

theorem lookupJs_mem {α : Type} (m : List (String × α)) (k : String) (v : α)
    (h : lookupJs m k = some v) : (k, v) ∈ m := by
  induction m with
  | nil => simp [lookupJs] at h
  | cons p rest ih =>
    obtain ⟨k2, w⟩ := p
    by_cases h2 : k2 = k
    · subst h2
      simp [lookupJs] at h
      simp [h]
    · simp [lookupJs, h2] at h
      exact List.mem_cons_of_mem _ (ih h)

theorem lookupJs_of_mem {α : Type} (m : List (String × α)) (k : String) (v : α)
    (hnd : (m.map Prod.fst).Nodup) (h : (k, v) ∈ m) : lookupJs m k = some v := by
  induction m with
  | nil => simp at h
  | cons p rest ih =>
    obtain ⟨k2, w⟩ := p
    simp only [List.map_cons, List.nodup_cons] at hnd
    rcases List.mem_cons.1 h with h1 | h1
    · obtain ⟨e1, e2⟩ := Prod.mk.injEq k v k2 w ▸ h1
      subst e1
      subst e2
      simp [lookupJs]
    · have hk : k2 ≠ k := by
        intro e
        subst e
        exact hnd.1 (List.mem_map.2 ⟨(k2, v), h1, rfl⟩)
      simp [lookupJs, hk, ih hnd.2 h1]

/-! ## Claim C3: which documents are rewritten -/

theorem writeGo_map_fst : ∀ (l : List (String × FlatMap)) (out : List (String × JVal)),
    writeGo l = .ok out → out.map Prod.fst = l.map Prod.fst := by
  intro l
  induction l with
  | nil =>
    intro out h
    have h2 : (Except.ok ([] : List (String × JVal)) : Except Unit _) = .ok out := h
    injection h2 with h3
    simp [← h3]
  | cons p rest ih =>
    intro out h
    obtain ⟨q, c⟩ := p
    cases hu : unflattenObject c with
    | error e => simp [writeGo, hu] at h
    | ok v =>
      cases hr : writeGo rest with
      | error e => simp [writeGo, hu, hr] at h
      | ok vs =>
        simp only [writeGo, hu, hr] at h
        injection h with h2
        simp [← h2, ih vs hr]

/-- C3 (counterexample): the claim says a loaded document outside the
changed-set is left untouched on disk, but `writeChanges` rewrites every
loaded document: with one loaded document and an empty changed-set the
document is still written. -/
theorem c3_counterexample :
    writeChanges [("/dst/a.json", [("k", JVal.str "v")])] [] =
      .ok [("/dst/a.json", JVal.obj [("k", JVal.str "v")])] := by decide

/-- C3 (amended): after a run, `writeChanges` rewrites every loaded document
unconditionally, whether or not it was mutated; the changed-set is used only
for the diagnostic count.  On success the written paths are exactly the
loaded paths, for any changed-set. -/
theorem writeChanges_writes_all (files : List (String × FlatMap))
    (changedFiles : List String) (out : List (String × JVal))
    (h : writeChanges files changedFiles = .ok out) :
    out.map Prod.fst = (jsEntries files).map Prod.fst :=
  writeGo_map_fst _ _ h

/-- C3 (witness): the amended theorem applied to a two-document store whose
changed-set names only one of them. -/
theorem writeChanges_writes_all_witness :
    ([("/d/a.json", JVal.obj [("k", JVal.str "v")]), ("/d/b.json", JVal.obj [("t", JVal.str "w")])].map
        Prod.fst : List String) =
      (jsEntries [("/d/a.json", ([("k", JVal.str "v")] : FlatMap)), ("/d/b.json", [("t", JVal.str "w")])]).map Prod.fst :=
  writeChanges_writes_all
    [("/d/a.json", [("k", JVal.str "v")]), ("/d/b.json", [("t", JVal.str "w")])] ["/d/a.json"]
    [("/d/a.json", JVal.obj [("k", JVal.str "v")]), ("/d/b.json", JVal.obj [("t", JVal.str "w")])]
    (by decide)

/-! ## Claim C9: unrecognized `fileLocaleSource` -/

/-- C9 (counterexample): the claim says that with an unrecognized
`fileLocaleSource` the pipelines proceed without error and silently skip the
document; in fact the very first use of the `null` locale
(`fileLocale.startsWith(locale)` in translate, `locale.slice(0, 2)` in
normalise) throws a `TypeError`. -/
theorem c9_counterexample :
    translateValuesStep "basename" "fr" "Cancel" "Annuler" [] "/d/acme/x/fr.json"
        [("a", JVal.str "Cancel")] = .error () ∧
      normaliseDoc "basename" 2 "core" (fun _ => true) [] "/d/acme/x/fr.json"
        [("a", JVal.str "Cancel")] = .error () := by
  constructor
  · decide
  · decide

/-- C9 (amended): when `fileLocaleSource` is neither `"filename"` nor
`"dirname"`, `getFileLocale` returns `null`; each pipeline then throws a
`TypeError` at the first document it consults (calling a string method on
the `null` locale) instead of proceeding without error. -/
theorem getFileLocale_unknown_mode (filePath src : String)
    (h1 : src ≠ "filename") (h2 : src ≠ "dirname") :
    getFileLocale filePath src = none ∧
      (∀ locale sourceText translation core content,
        translateValuesStep src locale sourceText translation core filePath content = .error ()) ∧
      (∀ brandPosition baseBrandName exB files content,
        normaliseDoc src brandPosition baseBrandName exB files filePath content = .error ()) := by
  have hn : getFileLocale filePath src = none := by
    simp [getFileLocale, h1, h2]
  refine ⟨hn, fun locale sourceText translation core content => ?_,
    fun brandPosition baseBrandName exB files content => ?_⟩
  · simp [translateValuesStep, hn]
  · simp [normaliseDoc, hn]

/-- C9 (witness): the amended theorem applied to the mode `"basename"`. -/
theorem getFileLocale_unknown_mode_witness :
    getFileLocale "/d/acme/x/fr.json" "basename" = none ∧
      (∀ locale sourceText translation core content,
        translateValuesStep "basename" locale sourceText translation core "/d/acme/x/fr.json" content = .error ()) ∧
      (∀ brandPosition baseBrandName exB files content,
        normaliseDoc "basename" brandPosition baseBrandName exB files "/d/acme/x/fr.json" content = .error ()) :=
  getFileLocale_unknown_mode "/d/acme/x/fr.json" "basename" (by decide) (by decide)

/-! ## Claim C10: `null` leaves make flattening throw -/

mutual
/-- The tree contains `null` somewhere (as the root, a field value or an
array element). -/
def hasNull : JVal → Bool
  | .str _ => false
  | .num _ => false
  | .bool _ => false
  | .null => true
  | .obj fs => hasNullFields fs
  | .arr es => hasNullElems es

def hasNullFields : List (String × JVal) → Bool
  | [] => false
  | (_, v) :: rest => hasNull v || hasNullFields rest

def hasNullElems : List JVal → Bool
  | [] => false
  | v :: rest => hasNull v || hasNullElems rest
end

theorem flattenChars_ok (cs : List Char) (i : Nat) (pre : String) :
    ∃ m, (Except.ok (flattenChars cs i pre) : Except Unit FlatMap) = .ok m :=
  ⟨_, rfl⟩

mutual
theorem flattenObject_error_iff : ∀ (v : JVal) (pre : String),
    flattenObject v pre = .error () ↔ hasNull v = true
  | .str s, pre => by simp [flattenObject, hasNull]
  | .num n, pre => by simp [flattenObject, hasNull]
  | .bool b, pre => by simp [flattenObject, hasNull]
  | .null, pre => by simp [flattenObject, hasNull]
  | .obj fs, pre => by
    simp only [flattenObject, hasNull]
    exact flattenList_error_iff fs pre []
  | .arr es, pre => by
    simp only [flattenObject, hasNull]
    exact flattenArr_error_iff es 0 pre []

theorem flattenList_error_iff : ∀ (l : List (String × JVal)) (pre : String) (acc : FlatMap),
    flattenList l pre acc = .error () ↔ hasNullFields l = true
  | [], pre, acc => by simp [flattenList, hasNullFields]
  | (k, v) :: rest, pre, acc => by
    by_cases ho : isObjType v
    · cases hv : flattenObject v (joinPath pre k) with
      | error e =>
        obtain rfl : e = () := rfl
        have hn : hasNull v = true := (flattenObject_error_iff v (joinPath pre k)).1 hv
        simp [flattenList, ho, hv, hasNullFields, hn]
      | ok sub =>
        have hn : hasNull v = false := by
          by_contra hc
          rw [(flattenObject_error_iff v (joinPath pre k)).2 (by simpa using hc)] at hv
          exact Except.noConfusion hv
        simp [flattenList, ho, hv, hasNullFields, hn,
          flattenList_error_iff rest pre (mergeJs acc sub)]
    · have hn : hasNull v = false := by cases v <;> simp_all [isObjType, hasNull]
      simp [flattenList, ho, hasNullFields, hn,
        flattenList_error_iff rest pre (insertJs acc (joinPath pre k) v)]

theorem flattenArr_error_iff : ∀ (l : List JVal) (i : Nat) (pre : String) (acc : FlatMap),
    flattenArr l i pre acc = .error () ↔ hasNullElems l = true
  | [], i, pre, acc => by simp [flattenArr, hasNullElems]
  | v :: rest, i, pre, acc => by
    by_cases ho : isObjType v
    · cases hv : flattenObject v (joinPath pre (natStr i)) with
      | error e =>
        obtain rfl : e = () := rfl
        have hn : hasNull v = true := (flattenObject_error_iff v _).1 hv
        simp [flattenArr, ho, hv, hasNullElems, hn]
      | ok sub =>
        have hn : hasNull v = false := by
          by_contra hc
          rw [(flattenObject_error_iff v _).2 (by simpa using hc)] at hv
          exact Except.noConfusion hv
        simp [flattenArr, ho, hv, hasNullElems, hn,
          flattenArr_error_iff rest (i + 1) pre (mergeJs acc sub)]
    · have hn : hasNull v = false := by cases v <;> simp_all [isObjType, hasNull]
      simp [flattenArr, ho, hasNullElems, hn,
        flattenArr_error_iff rest (i + 1) pre (insertJs acc (joinPath pre (natStr i)) v)]
end

/-- C10: `flattenObject` treats `null` as an interior node and enumerating
its entries throws, so flattening fails exactly when the tree contains a
`null` anywhere; in particular it succeeds whenever every leaf is a non-null
primitive.  (Both pipelines flatten every document they load, so a document
containing `null` aborts the run.) -/
theorem flattenObject_fails_iff_hasNull (v : JVal) (pre : String) :
    (flattenObject v pre = .error () ↔ hasNull v = true) ∧
      (hasNull v = false → ∃ m, flattenObject v pre = .ok m) := by
  refine ⟨flattenObject_error_iff v pre, fun h => ?_⟩
  cases hv : flattenObject v pre with
  | error e =>
    obtain rfl : e = () := rfl
    rw [(flattenObject_error_iff v pre).1 hv] at h
    exact Bool.noConfusion h
  | ok m => exact ⟨m, rfl⟩

/-- C10 (witness): the success half applied to a concrete null-free tree. -/
theorem flattenObject_fails_iff_hasNull_witness :
    ∃ m, flattenObject (.obj [("a", JVal.obj [("b", JVal.str "x")])]) "" = .ok m :=
  (flattenObject_fails_iff_hasNull (.obj [("a", JVal.obj [("b", JVal.str "x")])]) "").2 (by decide)

/-! ## Claim C4: the candidate base-file set of normalise -/

/-- Modelled from the claim's words (for comparison with the source's
`baseFilesOf`): the same fixed candidate list, but filtered to candidates
that exist among the loaded documents. -/
def baseFilesClaimC4 (filePath locale lang : String) (brand : Option String)
    (brandPosition : Nat) (baseBrandName : String) (loadedPaths : List String) : List String :=
  let baseFilePath := setFileBrand filePath brandPosition baseBrandName
  ((if brand ≠ some baseBrandName then [baseFilePath] else []) ++
    (if lang ≠ locale then
      (if brand ≠ some baseBrandName then [jsReplace baseFilePath locale lang] else []) ++
        [jsReplace filePath locale lang]
     else [])).filter (fun p => loadedPaths.contains p)

/-- C4 (counterexample): the source filters candidates with `fs.existsSync`,
not by membership among the loaded documents.  With a base file present on
disk but not matched by the glob, the code keeps the candidate (and the
duplicate scan then dereferences the unloaded document and throws), while
the claim's set is empty (so the claim predicts a silent no-op). -/
theorem c4_counterexample :
    baseFilesOf "w/acme/x/en.json" "en" "en" (some "acme") 2 "core" (fun _ => true) =
        ["w/core/x/en.json"] ∧
      baseFilesClaimC4 "w/acme/x/en.json" "en" "en" (some "acme") 2 "core"
        ["w/acme/x/en.json"] = [] ∧
      normaliseDoc "filename" 2 "core" (fun _ => true)
        [("w/acme/x/en.json", [("t", JVal.str "x")])] "w/acme/x/en.json"
        [("t", JVal.str "x")] = .error () := by
  refine ⟨by decide, by decide, by decide⟩

/-- C4 (amended): for a document processed by normalise (locale derived by
`getFileLocale`, language `locale.slice(0,2)`, brand at `brandPosition`),
the candidate base set is exactly the claim's fixed list — same path with
the brand segment replaced by `baseBrandName` when the document's brand
differs, plus, when the locale is regional, the language-only variants of
the base path (when the brand differs) and of the document's own path — but
filtered by existence on the file system (`fs.existsSync`), not by
membership among the loaded documents. -/
theorem baseFiles_mem_iff (filePath locale : String) (brandPosition : Nat)
    (baseBrandName : String) (exB : String → Bool) (p : String) :
    p ∈ baseFilesOf filePath locale (jsSlice locale 2) (getFileBrand filePath brandPosition)
        brandPosition baseBrandName exB ↔
      exB p = true ∧
        ((getFileBrand filePath brandPosition ≠ some baseBrandName ∧
            p = setFileBrand filePath brandPosition baseBrandName) ∨
          (jsSlice locale 2 ≠ locale ∧ getFileBrand filePath brandPosition ≠ some baseBrandName ∧
            p = jsReplace (setFileBrand filePath brandPosition baseBrandName) locale (jsSlice locale 2)) ∨
          (jsSlice locale 2 ≠ locale ∧ p = jsReplace filePath locale (jsSlice locale 2))) := by
  unfold baseFilesOf
  rw [List.mem_filter]
  by_cases hb : getFileBrand filePath brandPosition ≠ some baseBrandName <;>
    by_cases hr : jsSlice locale 2 ≠ locale <;>
      simp [hb, hr, List.mem_append, and_comm]


/-! ## Permutation facts about enumeration order -/

theorem insertByNum_perm {α : Type} (p : String × α) (l : List (String × α)) :
    List.Perm (insertByNum p l) (p :: l) := by
  induction l with
  | nil => simp [insertByNum]
  | cons q rest ih =>
    by_cases h : keyNum q.1 ≤ keyNum p.1
    · simp only [insertByNum, if_pos h]
      exact (ih.cons q).trans (List.Perm.swap p q rest)
    · simp [insertByNum, if_neg h]

theorem sortByNum_perm {α : Type} (l : List (String × α)) :
    List.Perm (sortByNum l) l := by
  induction l with
  | nil => simp [sortByNum]
  | cons p rest ih =>
    exact ((insertByNum_perm p (sortByNum rest)).trans (ih.cons p))

theorem jsEntries_perm {α : Type} (l : List (String × α)) :
    List.Perm (jsEntries l) l := by
  unfold jsEntries
  exact ((sortByNum_perm _).append_right _).trans (List.filter_append_perm _ l)

theorem mem_jsEntries {α : Type} (p : String × α) (l : List (String × α)) :
    p ∈ jsEntries l ↔ p ∈ l :=
  (jsEntries_perm l).mem_iff

theorem jsEntries_nodup_fst {α : Type} (l : List (String × α))
    (h : (l.map Prod.fst).Nodup) : ((jsEntries l).map Prod.fst).Nodup :=
  (((jsEntries_perm l).map Prod.fst).nodup_iff).2 h

/-! ## Claim C5: the duplicate-detection predicate of normalise -/

/-- Modelled from the claim's words: the entry is a duplicate when the base
has the key with the same value, or the entry's value is `$`-wrapped and the
base binds the key to a non-`$`-wrapped value. -/
def dupClaimC5 (bc : FlatMap) (k : String) (v : JVal) : Bool :=
  decide (lookupJs bc k = some v) ||
    (valWrapped v && (lookupJs bc k).isSome && !optWrapped (lookupJs bc k))

/-- The predicate the code actually evaluates (amended claim): the base's
value must additionally be truthy — a base value of `""` (or `0`, `false`)
never triggers the placeholder rule. -/
def dupAmendedC5 (bc : FlatMap) (k : String) (v : JVal) : Bool :=
  decide (lookupJs bc k = some v) ||
    (valWrapped v && truthyOpt (lookupJs bc k) && !optWrapped (lookupJs bc k))

/-- Duplicate against one loaded candidate base (an unloaded base never
matches here; the code would have thrown instead). -/
def dupForBase (files : List (String × FlatMap)) (k : String) (v : JVal) (bp : String) : Bool :=
  match lookupJs files bp with
  | some bc => dupAmendedC5 bc k v
  | none => false

/-- Duplicate with respect to some candidate base document. -/
def dupAnyBase (files : List (String × FlatMap)) (bps : List String) (k : String) (v : JVal) : Bool :=
  bps.any (dupForBase files k v)

/-- C5 (counterexample): the document's value `$x$` is a placeholder and the
base binds the key to the non-placeholder value `""`; the claim says the
entry is removed, but the code's truthiness test on `files[bp][key]` rejects
the empty string, so the entry is kept (normaliseDoc leaves the document
unchanged). -/
theorem c5_counterexample :
    entryDup [("B", [("t", JVal.str "")])] ["B"] "t" (.str "$x$") = .ok false ∧
      dupClaimC5 [("t", JVal.str "")] "t" (.str "$x$") = true ∧
      normaliseDoc "filename" 2 "core" (fun p => p = "w/core/x/en.json")
          [("w/core/x/en.json", [("t", JVal.str "")]),
           ("w/acme/x/en.json", [("t", JVal.str "$x$")])]
          "w/acme/x/en.json" [("t", JVal.str "$x$")] =
        .ok ([("t", JVal.str "$x$")], false) := by
  refine ⟨by decide, by decide, by decide⟩

theorem entryDupAgainst_ok (bc : FlatMap) (k : String) (v : JVal) (d : Bool)
    (h : entryDupAgainst bc k v = .ok d) : d = dupAmendedC5 bc k v := by
  cases v with
  | str s =>
    simp only [entryDupAgainst] at h
    by_cases h1 : lookupJs bc k = some (JVal.str s)
    · rw [if_pos h1] at h
      injection h with h2
      simp [dupAmendedC5, h1, ← h2]
    · rw [if_neg h1] at h
      by_cases hw : strWrapped s = true
      · rw [if_pos hw] at h
        by_cases ht : truthyOpt (lookupJs bc k) = true
        · rw [if_pos ht] at h
          split at h
          · next bs heq =>
            injection h with h2
            rw [heq] at h1 ht
            simp only [dupAmendedC5, heq, optWrapped, valWrapped]
            simp [h1, hw, ht, ← h2]
          · next hne => exact absurd h (by simp)
        · rw [if_neg ht] at h
          injection h with h2
          simp [dupAmendedC5, h1, Bool.eq_false_iff.2 ht, ← h2]
      · rw [if_neg hw] at h
        injection h with h2
        simp [dupAmendedC5, h1, valWrapped, Bool.eq_false_iff.2 hw, ← h2]
  | num n =>
    simp only [entryDupAgainst] at h
    by_cases h1 : lookupJs bc k = some (JVal.num n)
    · rw [if_pos h1] at h
      injection h with h2
      simp [dupAmendedC5, h1, ← h2]
    · rw [if_neg h1] at h
      exact absurd h (by simp)
  | bool b =>
    simp only [entryDupAgainst] at h
    by_cases h1 : lookupJs bc k = some (JVal.bool b)
    · rw [if_pos h1] at h
      injection h with h2
      simp [dupAmendedC5, h1, ← h2]
    · rw [if_neg h1] at h
      exact absurd h (by simp)
  | null =>
    simp only [entryDupAgainst] at h
    by_cases h1 : lookupJs bc k = some JVal.null
    · rw [if_pos h1] at h
      injection h with h2
      simp [dupAmendedC5, h1, ← h2]
    · rw [if_neg h1] at h
      exact absurd h (by simp)
  | obj fs =>
    simp only [entryDupAgainst] at h
    by_cases h1 : lookupJs bc k = some (JVal.obj fs)
    · rw [if_pos h1] at h
      injection h with h2
      simp [dupAmendedC5, h1, ← h2]
    · rw [if_neg h1] at h
      exact absurd h (by simp)
  | arr es =>
    simp only [entryDupAgainst] at h
    by_cases h1 : lookupJs bc k = some (JVal.arr es)
    · rw [if_pos h1] at h
      injection h with h2
      simp [dupAmendedC5, h1, ← h2]
    · rw [if_neg h1] at h
      exact absurd h (by simp)

theorem entryDup_ok (files : List (String × FlatMap)) :
    ∀ (bps : List String) (k : String) (v : JVal) (d : Bool),
      entryDup files bps k v = .ok d → d = dupAnyBase files bps k v := by
  intro bps
  induction bps with
  | nil =>
    intro k v d h
    simp [entryDup] at h
    simp [← h, dupAnyBase]
  | cons bp rest ih =>
    intro k v d h
    unfold entryDup at h
    split at h
    · exact absurd h (by simp)
    · next bc hb =>
      split at h
      · next he => exact absurd h (by simp)
      · next he =>
        injection h with h2
        simp [← h2, dupAnyBase, List.any_cons, dupForBase, hb,
          ← entryDupAgainst_ok bc k v true he]
      · next he =>
        have h4 := ih k v d h
        simp [h4, dupAnyBase, List.any_cons, dupForBase, hb,
          ← entryDupAgainst_ok bc k v false he]

theorem dupEntries_ok_filter (files : List (String × FlatMap)) (bps : List String) :
    ∀ (l : List (String × JVal)) (dups : List (String × JVal)),
      dupEntries files bps l = .ok dups →
        dups = l.filter fun p => dupAnyBase files bps p.1 p.2 := by
  intro l
  induction l with
  | nil =>
    intro dups h
    simp [dupEntries] at h
    subst h
    simp
  | cons p rest ih =>
    intro dups h
    obtain ⟨k, v⟩ := p
    unfold dupEntries at h
    split at h
    · exact absurd h (by simp)
    · next d he =>
      split at h
      · exact absurd h (by simp)
      · next tail hr =>
        injection h with h2
        have h3 := entryDup_ok files bps k v d he
        have h4 := ih tail hr
        cases d with
        | true => simp [← h2, h4, List.filter_cons, ← h3]
        | false => simp [← h2, h4, List.filter_cons, ← h3]

theorem eraseJs_sublist {α : Type} (m : List (String × α)) (k : String) :
    (eraseJs m k).Sublist m := by
  induction m with
  | nil => simp [eraseJs]
  | cons p rest ih =>
    obtain ⟨k2, w⟩ := p
    by_cases h : k2 = k
    · simp [eraseJs, h]
    · simpa [eraseJs, h] using ih

theorem eraseJs_nodup_fst {α : Type} (m : List (String × α)) (k : String)
    (h : (m.map Prod.fst).Nodup) : ((eraseJs m k).map Prod.fst).Nodup :=
  ((eraseJs_sublist m k).map Prod.fst).nodup h

theorem lookup_foldl_erase (l : List (String × JVal)) :
    ∀ (c : FlatMap), (c.map Prod.fst).Nodup → ∀ (q : String),
      lookupJs (l.foldl (fun c2 p => eraseJs c2 p.1) c) q =
        if q ∈ l.map Prod.fst then none else lookupJs c q := by
  induction l with
  | nil => intro c hnd q; simp
  | cons p rest ih =>
    intro c hnd q
    obtain ⟨k, v⟩ := p
    simp only [List.foldl_cons]
    rw [ih (eraseJs c k) (eraseJs_nodup_fst c k hnd) q]
    by_cases h1 : q ∈ rest.map Prod.fst
    · simp [h1]
    · by_cases h2 : q = k
      · subst h2
        simp [h1, lookupJs_eraseJs_self c q hnd]
      · simp [h1, h2, lookupJs_eraseJs_ne c k q h2]

theorem mem_unique_of_nodup_fst (m : List (String × JVal)) (k : String) (v v2 : JVal)
    (hnd : (m.map Prod.fst).Nodup) (h1 : (k, v) ∈ m) (h2 : (k, v2) ∈ m) : v = v2 := by
  have e1 := lookupJs_of_mem m k v hnd h1
  have e2 := lookupJs_of_mem m k v2 hnd h2
  rw [e1] at e2
  injection e2

/-- C5 (amended): an entry `(key, value)` of a processed document is removed
exactly when, for some candidate base document, either the base's flattened
map has the key with the same value, or the value is `$`-wrapped and the
base binds the key to a truthy value (in particular not the empty string)
that is not itself `$`-wrapped. -/
theorem normaliseDoc_removes_iff (fileLocaleSource : String) (brandPosition : Nat)
    (baseBrandName : String) (exB : String → Bool) (files : List (String × FlatMap))
    (filePath locale : String) (content c2 : FlatMap) (ch : Bool) (k : String) (v : JVal)
    (hloc : getFileLocale filePath fileLocaleSource = some locale)
    (hnd : (content.map Prod.fst).Nodup)
    (h : normaliseDoc fileLocaleSource brandPosition baseBrandName exB files filePath content =
      .ok (c2, ch))
    (hk : (k, v) ∈ content) :
    lookupJs c2 k = none ↔
      dupAnyBase files
        (baseFilesOf filePath locale (jsSlice locale 2) (getFileBrand filePath brandPosition)
          brandPosition baseBrandName exB) k v = true := by
  simp only [normaliseDoc, hloc] at h
  split at h
  · exact absurd h (by simp)
  · next dups hd =>
    injection h with h2
    obtain ⟨e1, _⟩ := Prod.mk.injEq .. ▸ h2
    subst e1
    have hfil := dupEntries_ok_filter files _ _ dups hd
    rw [lookup_foldl_erase dups content hnd k]
    have hlk : lookupJs content k = some v := lookupJs_of_mem content k v hnd hk
    constructor
    · intro hnone
      by_cases hmem : k ∈ dups.map Prod.fst
      · obtain ⟨⟨k2, v2⟩, hpm, hpe⟩ := List.mem_map.1 hmem
        have hke : k = k2 := hpe.symm
        subst hke
        rw [hfil] at hpm
        have hpc := List.of_mem_filter hpm
        have hv2 : v2 = v :=
          mem_unique_of_nodup_fst content k v2 v hnd
            ((mem_jsEntries _ content).1 (List.mem_of_mem_filter hpm)) hk
        rw [← hv2]
        exact hpc
      · rw [if_neg hmem, hlk] at hnone
        exact absurd hnone (by simp)
    · intro hdup
      have hmem : (k, v) ∈ dups := by
        rw [hfil]
        exact List.mem_filter.2 ⟨(mem_jsEntries _ content).2 hk, hdup⟩
      rw [if_pos (List.mem_map.2 ⟨(k, v), hmem, rfl⟩)]

/-- C5 (witness): the amended theorem on a concrete store — value `$x$`
against a truthy, non-wrapped base value `"Home"` is removed. -/
theorem normaliseDoc_removes_iff_witness :
    lookupJs ([] : FlatMap) "t" = none ↔
      dupAnyBase
        [("w/core/x/en.json", [("t", JVal.str "Home")]),
         ("w/acme/x/en.json", [("t", JVal.str "$x$")])]
        (baseFilesOf "w/acme/x/en.json" "en" (jsSlice "en" 2)
          (getFileBrand "w/acme/x/en.json" 2) 2 "core" (fun p => p = "w/core/x/en.json"))
        "t" (JVal.str "$x$") :=
  normaliseDoc_removes_iff "filename" 2 "core" (fun p => p = "w/core/x/en.json")
    [("w/core/x/en.json", [("t", JVal.str "Home")]),
     ("w/acme/x/en.json", [("t", JVal.str "$x$")])]
    "w/acme/x/en.json" "en" [("t", JVal.str "$x$")] [] true "t" (JVal.str "$x$")
    (by decide) (by decide) (by decide) (by decide)

/-! ## Claim C6: the core fallback of translate -/

theorem lookup_foldl_insert_const (paths : List String) :
    ∀ (c : FlatMap) (t : JVal) (q : String),
      lookupJs (paths.foldl (fun c2 p => insertJs c2 p t) c) q =
        if q ∈ paths then some t else lookupJs c q := by
  induction paths with
  | nil => intro c t q; simp
  | cons p rest ih =>
    intro c t q
    simp only [List.foldl_cons]
    rw [ih (insertJs c p t) t q]
    by_cases h1 : q ∈ rest
    · simp [h1]
    · by_cases h2 : q = p
      · subst h2
        simp [h1, lookupJs_insertJs_self]
      · simp [h1, h2, lookupJs_insertJs_ne c p q t h2]

/-- C6: for a destination document whose derived locale starts with the
target locale, the core document's flattened map is searched exactly when
the document itself has no value matches AND the file path contains
`"core"` AND the derived locale has no `"-"`; paths found in the core map
are written (with the translation) into the current document's map — and
when the fallback condition fails the document is left unchanged even if
the core map has matches. -/
theorem translate_core_fallback (fileLocaleSource locale sourceText translation : String)
    (core : FlatMap) (filePath fl : String) (content c2 : FlatMap) (ch : Bool)
    (hloc : getFileLocale filePath fileLocaleSource = some fl)
    (hstart : jsStartsWith fl locale = true)
    (h : translateValuesStep fileLocaleSource locale sourceText translation core filePath content =
      .ok (c2, ch)) :
    (findPaths sourceText content = [] ∧ jsIncludes filePath "core" = true ∧
        jsIncludes fl "-" = false →
      (∀ q, lookupJs c2 q =
          if q ∈ findPaths sourceText core then some (.str translation) else lookupJs content q) ∧
        ch = !(findPaths sourceText core).isEmpty) ∧
      (findPaths sourceText content ≠ [] →
        (∀ q, lookupJs c2 q =
            if q ∈ findPaths sourceText content then some (.str translation)
            else lookupJs content q) ∧
          ch = true) ∧
      (findPaths sourceText content = [] ∧
          ¬(jsIncludes filePath "core" = true ∧ jsIncludes fl "-" = false) →
        c2 = content ∧ ch = false) := by
  simp only [translateValuesStep, hloc, hstart, if_pos] at h
  refine ⟨fun ⟨he, hc, hd⟩ => ?_, fun hne => ?_, fun ⟨he, hnc⟩ => ?_⟩
  · rw [he] at h
    simp only [List.isEmpty_nil, hc, hd, Bool.not_false, Bool.and_self, if_pos] at h
    injection h with h2
    obtain ⟨e1, e2⟩ := Prod.mk.injEq .. ▸ h2
    subst e1
    exact ⟨fun q => lookup_foldl_insert_const _ content (.str translation) q, e2.symm⟩
  · have hie : (findPaths sourceText content).isEmpty = false := by
      simpa using hne
    rw [hie] at h
    simp only [Bool.false_and, Bool.false_eq_true, if_neg] at h
    injection h with h2
    obtain ⟨e1, e2⟩ := Prod.mk.injEq .. ▸ h2
    subst e1
    refine ⟨fun q => lookup_foldl_insert_const _ content (.str translation) q, ?_⟩
    rw [← e2]
    simp [hie]
  · rw [he] at h
    have hcond : (jsIncludes filePath "core" && !jsIncludes fl "-") = false := by
      cases hi : jsIncludes filePath "core" with
      | false => simp [hi]
      | true =>
        cases hd2 : jsIncludes fl "-" with
        | false => exact absurd ⟨hi, hd2⟩ hnc
        | true => simp [hd2]
    simp only [List.isEmpty_nil, Bool.true_and, hcond, Bool.false_eq_true, if_neg] at h
    injection h with h2
    obtain ⟨e1, e2⟩ := Prod.mk.injEq .. ▸ h2
    subst e1
    refine ⟨rfl, ?_⟩
    rw [← e2]
    rfl

/-- C6 (witness): concrete instantiation — a core-branded non-regional
document with no own match receives the core path, written into its own
map. -/
theorem translate_core_fallback_witness :
    lookupJs [("other", JVal.str "X"), ("buttons.cancel", JVal.str "Annuler")] "buttons.cancel" =
      (if "buttons.cancel" ∈ findPaths "Cancel" [("buttons.cancel", JVal.str "Cancel")] then
        some (JVal.str "Annuler")
      else lookupJs [("other", JVal.str "X")] "buttons.cancel") :=
  (((translate_core_fallback "filename" "fr" "Cancel" "Annuler"
        [("buttons.cancel", JVal.str "Cancel")] "w/core/x/fr.json" "fr"
        [("other", JVal.str "X")]
        [("other", JVal.str "X"), ("buttons.cancel", JVal.str "Annuler")] true
        (by decide) (by decide) (by decide)).1
      (by refine ⟨by decide, by decide, by decide⟩)).1) "buttons.cancel"

/-! ## Claim C2: key translation -/

theorem insertJs_map_fst_of_not_mem {α : Type} (m : List (String × α)) (k : String) (v : α)
    (h : k ∉ m.map Prod.fst) : (insertJs m k v).map Prod.fst = m.map Prod.fst ++ [k] := by
  induction m with
  | nil => simp [insertJs]
  | cons p rest ih =>
    obtain ⟨k2, w⟩ := p
    simp only [List.map_cons, List.mem_cons, not_or] at h
    have h2 : k2 ≠ k := fun e => h.1 e.symm
    simp [insertJs, h2, ih h.2]

theorem lookupJs_isSome_of_mem_fst {α : Type} (m : List (String × α)) (k : String)
    (h : k ∈ m.map Prod.fst) : ∃ v, lookupJs m k = some v := by
  induction m with
  | nil => simp at h
  | cons p rest ih =>
    obtain ⟨k2, w⟩ := p
    by_cases h2 : k2 = k
    · exact ⟨w, by simp [lookupJs, h2]⟩
    · simp only [List.map_cons, List.mem_cons] at h
      rcases h with h1 | h1
      · exact absurd h1.symm h2
      · obtain ⟨v, hv⟩ := ih h1
        exact ⟨v, by simp [lookupJs, h2, hv]⟩

theorem mem_fst_insertJs {α : Type} (m : List (String × α)) (k q : String) (v : α) :
    q ∈ (insertJs m k v).map Prod.fst ↔ q ∈ m.map Prod.fst ∨ q = k := by
  induction m with
  | nil => simp [insertJs]
  | cons p rest ih =>
    obtain ⟨k2, w⟩ := p
    by_cases h2 : k2 = k
    · subst h2
      simp [insertJs]
      tauto
    · simp [insertJs, h2, ih]
      tauto

theorem mem_fst_eraseJs {α : Type} (m : List (String × α)) (k q : String)
    (h : q ∈ (eraseJs m k).map Prod.fst) : q ∈ m.map Prod.fst :=
  List.Sublist.mem h ((eraseJs_sublist m k).map Prod.fst)

/-- The keys actually matched by `findKeys` are keys of the map. -/
theorem findKeys_subset (text : String) (m : FlatMap) (k : String)
    (h : k ∈ findKeys text m) : k ∈ m.map Prod.fst := by
  unfold findKeys at h
  have h2 := List.mem_of_mem_filter h
  obtain ⟨p, hp, he⟩ := List.mem_map.1 h2
  exact List.mem_map.2 ⟨p, (mem_jsEntries p m).1 hp, he⟩

theorem findKeys_nodup (text : String) (m : FlatMap)
    (hnd : (m.map Prod.fst).Nodup) : (findKeys text m).Nodup := by
  unfold findKeys
  exact (jsEntries_nodup_fst m hnd).filter _

/-- C2 (counterexample): the phrase occurs twice in the path
`Cancel.Cancel`; the claim says every occurrence is replaced
(`Annuler.Annuler`), but `String.prototype.replace` with a string pattern
replaces only the first, producing `Annuler.Cancel`. -/
theorem c2_counterexample :
    (translateKeysStep "Cancel" "Annuler" [("Cancel.Cancel", JVal.str "v")]).1 =
        [("Annuler.Cancel", JVal.str "v")] ∧
      lookupJs (translateKeysStep "Cancel" "Annuler" [("Cancel.Cancel", JVal.str "v")]).1
          "Annuler.Annuler" = none ∧
      jsReplace "Cancel.Cancel" "Cancel" "Annuler" = "Annuler.Cancel" := by
  refine ⟨by decide, by decide, by decide⟩

/-- Frame property of the rename loop: keys that are neither renamed nor
rename targets keep their binding. -/
theorem fold_rename_frame (text transl : String) : ∀ (ks : List String) (c : FlatMap) (q : String),
    q ∉ ks → (∀ k ∈ ks, jsReplace k text transl ≠ q) →
      lookupJs (ks.foldl (renameKey text transl) c) q = lookupJs c q := by
  intro ks
  induction ks with
  | nil => intro c q _ _; simp
  | cons k0 rest ih =>
    intro c q hq hrk
    simp only [List.foldl_cons]
    have hq0 : q ≠ k0 := fun e => hq (e ▸ List.mem_cons_self k0 rest)
    have hrk0 : jsReplace k0 text transl ≠ q := hrk k0 (List.mem_cons_self k0 rest)
    rw [ih (renameKey text transl c k0) q (fun hm => hq (List.mem_cons_of_mem _ hm))
      (fun k hk => hrk k (List.mem_cons_of_mem _ hk))]
    unfold renameKey
    by_cases hch : jsReplace k0 text transl ≠ k0
    · rw [if_pos hch]
      rw [lookupJs_eraseJs_ne _ k0 q hq0,
        lookupJs_insertJs_ne _ _ q _ (fun e => hrk0 e.symm)]
    · rw [if_neg hch]

/-- Main induction for the rename loop: under freshness of the renamed keys,
each changed key's value moves to its renamed key and the old key is
deleted. -/
theorem fold_rename_moves (text transl : String) : ∀ (ks : List String) (c : FlatMap),
    (c.map Prod.fst).Nodup → ks.Nodup →
    (∀ k ∈ ks, k ∈ c.map Prod.fst) →
    (∀ k ∈ ks, jsReplace k text transl ≠ k → jsReplace k text transl ∉ c.map Prod.fst) →
    (∀ k ∈ ks, ∀ k2 ∈ ks, k ≠ k2 → jsReplace k text transl ≠ k →
      jsReplace k2 text transl ≠ k2 → jsReplace k text transl ≠ jsReplace k2 text transl) →
    ∀ k ∈ ks, jsReplace k text transl ≠ k →
      lookupJs (ks.foldl (renameKey text transl) c) (jsReplace k text transl) = lookupJs c k ∧
        lookupJs (ks.foldl (renameKey text transl) c) k = none := by
  intro ks
  induction ks with
  | nil => intro c _ _ _ _ _ k hk; simp at hk
  | cons k0 rest ih =>
    intro c hnd hksnd hsub hfresh hpair k hk hchk
    simp only [List.foldl_cons]
    have hk0c : k0 ∈ c.map Prod.fst := hsub k0 (List.mem_cons_self k0 rest)
    rcases List.mem_cons.1 hk with rfl | hkr
    · -- k = k0: rename it now, then show the rest of the loop leaves both
      -- bindings alone
      have hrkf : jsReplace k text transl ∉ c.map Prod.fst := hfresh k hk hchk
      obtain ⟨v0, hv0⟩ := lookupJs_isSome_of_mem_fst c k hk0c
      have hrne : ∀ k2 ∈ rest, jsReplace k2 text transl ≠ jsReplace k text transl := by
        intro k2 hk2 he
        by_cases hch2 : jsReplace k2 text transl ≠ k2
        · exact (hpair k hk k2 (List.mem_cons_of_mem _ hk2)
            (fun e => (List.nodup_cons.1 hksnd).1 (e ▸ hk2)) hchk hch2) he.symm
        · push_neg at hch2
          rw [hch2] at he
          exact hrkf (he ▸ hsub k2 (List.mem_cons_of_mem _ hk2))
      have hone : ∀ k2 ∈ rest, jsReplace k2 text transl ≠ k := by
        intro k2 hk2 he
        by_cases hch2 : jsReplace k2 text transl ≠ k2
        · exact hfresh k2 (List.mem_cons_of_mem _ hk2) hch2 (he ▸ hk0c)
        · push_neg at hch2
          rw [hch2] at he
          exact (List.nodup_cons.1 hksnd).1 (he ▸ hk2)
      constructor
      · rw [fold_rename_frame text transl rest _ (jsReplace k text transl)
          (fun hm => hrkf (hsub _ (List.mem_cons_of_mem _ hm))) hrne]
        unfold renameKey
        rw [if_pos hchk, lookupJs_eraseJs_ne _ k _ hchk,
          lookupJs_insertJs_self, hv0]
        rfl
      · rw [fold_rename_frame text transl rest _ k
          (fun hm => (List.nodup_cons.1 hksnd).1 hm) hone]
        unfold renameKey
        rw [if_pos hchk]
        apply lookupJs_eraseJs_self
        rw [hv0]
        rw [insertJs_map_fst_of_not_mem c _ _ hrkf]
        simp only [List.nodup_append, List.nodup_cons]
        exact ⟨hnd, by simp, by simpa using fun hm => hrkf hm⟩
    · -- k comes later in the loop: apply the induction hypothesis to the
      -- state after renaming k0
      have hc1nd : ((renameKey text transl c k0).map Prod.fst).Nodup := by
        unfold renameKey
        by_cases hch0 : jsReplace k0 text transl ≠ k0
        · rw [if_pos hch0]
          apply eraseJs_nodup_fst
          rw [insertJs_map_fst_of_not_mem c _ _ (hfresh k0 (List.mem_cons_self k0 rest) hch0)]
          simp only [List.nodup_append, List.nodup_cons]
          exact ⟨hnd, by simp, by simpa using
            fun hm => (hfresh k0 (List.mem_cons_self k0 rest) hch0) hm⟩
        · rw [if_neg hch0]
          exact hnd
      have hk0r : k0 ∉ rest := (List.nodup_cons.1 hksnd).1
      have hmem1 : ∀ k2 ∈ rest, k2 ∈ (renameKey text transl c k0).map Prod.fst := by
        intro k2 hk2
        have hk2ne : k2 ≠ k0 := fun e => hk0r (e ▸ hk2)
        unfold renameKey
        by_cases hch0 : jsReplace k0 text transl ≠ k0
        · rw [if_pos hch0]
          have : k2 ∈ (insertJs c (jsReplace k0 text transl)
              ((lookupJs c k0).getD .null)).map Prod.fst :=
            (mem_fst_insertJs c _ k2 _).2 (Or.inl (hsub k2 (List.mem_cons_of_mem _ hk2)))
          -- erase only removes k0
          obtain ⟨v2, hv2⟩ := lookupJs_isSome_of_mem_fst _ k2 this
          have hl : lookupJs (eraseJs (insertJs c (jsReplace k0 text transl)
              ((lookupJs c k0).getD .null)) k0) k2 = some v2 := by
            rw [lookupJs_eraseJs_ne _ k0 k2 hk2ne]
            exact hv2
          obtain ⟨p, hp, hpe⟩ := List.mem_map.1
            (List.mem_map.2 ⟨(k2, v2), lookupJs_mem _ k2 v2 hl, rfl⟩ :
              k2 ∈ (eraseJs (insertJs c (jsReplace k0 text transl)
                ((lookupJs c k0).getD .null)) k0).map Prod.fst)
          exact List.mem_map.2 ⟨p, hp, hpe⟩
        · rw [if_neg hch0]
          exact hsub k2 (List.mem_cons_of_mem _ hk2)
      have hfr1 : ∀ k2 ∈ rest, jsReplace k2 text transl ≠ k2 →
          jsReplace k2 text transl ∉ (renameKey text transl c k0).map Prod.fst := by
        intro k2 hk2 hch2 hm
        unfold renameKey at hm
        by_cases hch0 : jsReplace k0 text transl ≠ k0
        · rw [if_pos hch0] at hm
          have hm2 := mem_fst_eraseJs _ k0 _ hm
          rcases (mem_fst_insertJs c _ _ _).1 hm2 with hm3 | hm3
          · exact hfresh k2 (List.mem_cons_of_mem _ hk2) hch2 hm3
          · exact hpair k2 (List.mem_cons_of_mem _ hk2) k0 (List.mem_cons_self k0 rest)
              (fun e => hk0r (e ▸ hk2)) hch2 hch0 hm3
        · rw [if_neg hch0] at hm
          exact hfresh k2 (List.mem_cons_of_mem _ hk2) hch2 hm
      have := ih (renameKey text transl c k0) hc1nd (List.nodup_cons.1 hksnd).2 hmem1 hfr1
        (fun a ha b hb hne hca hcb =>
          hpair a (List.mem_cons_of_mem _ ha) b (List.mem_cons_of_mem _ hb) hne hca hcb)
        k hkr hchk
      refine ⟨?_, this.2⟩
      rw [this.1]
      -- the value of k was untouched by the first rename
      have hkne0 : k ≠ k0 := fun e => hk0r (e ▸ hkr)
      unfold renameKey
      by_cases hch0 : jsReplace k0 text transl ≠ k0
      · rw [if_pos hch0]
        rw [lookupJs_eraseJs_ne _ k0 k hkne0]
        rw [lookupJs_insertJs_ne _ _ k _ ?hne]
        case hne =>
          intro he
          exact (hfresh k0 (List.mem_cons_self k0 rest) hch0) (he ▸ hsub k hk)
      · rw [if_neg hch0]

/-- C2 (amended): with `translateKeys` enabled, for every flat path that has
a dot-separated segment equal to the source phrase or to `$phrase$`, the new
path is computed by replacing only the FIRST occurrence of the phrase text
in the path string; when the new path differs (and the renamed keys are
fresh and pairwise distinct) the value is moved to the new path and the old
entry is deleted. -/
theorem translateKeysStep_moves (text transl : String) (content : FlatMap)
    (hnd : (content.map Prod.fst).Nodup)
    (hfresh : ∀ k ∈ findKeys text content, jsReplace k text transl ≠ k →
      jsReplace k text transl ∉ content.map Prod.fst)
    (hpair : ∀ k ∈ findKeys text content, ∀ k2 ∈ findKeys text content, k ≠ k2 →
      jsReplace k text transl ≠ k → jsReplace k2 text transl ≠ k2 →
      jsReplace k text transl ≠ jsReplace k2 text transl) :
    ∀ k ∈ findKeys text content, jsReplace k text transl ≠ k →
      lookupJs (translateKeysStep text transl content).1 (jsReplace k text transl) =
          lookupJs content k ∧
        lookupJs (translateKeysStep text transl content).1 k = none := by
  intro k hk hch
  unfold translateKeysStep
  exact fold_rename_moves text transl (findKeys text content) content hnd
    (findKeys_nodup text content hnd) (fun k2 hk2 => findKeys_subset text content k2 hk2)
    hfresh hpair k hk hch

/-- C2 (witness): `menu.Cancel.label` moves to `menu.Annuler.label` with its
value, and the old key is gone. -/
theorem translateKeysStep_moves_witness :
    lookupJs (translateKeysStep "Cancel" "Annuler"
        [("menu.Cancel.label", JVal.str "v"), ("other", JVal.str "w")]).1
        "menu.Annuler.label" =
      lookupJs [("menu.Cancel.label", JVal.str "v"), ("other", JVal.str "w")]
        "menu.Cancel.label" ∧
    lookupJs (translateKeysStep "Cancel" "Annuler"
        [("menu.Cancel.label", JVal.str "v"), ("other", JVal.str "w")]).1
        "menu.Cancel.label" = none :=
  translateKeysStep_moves "Cancel" "Annuler"
    [("menu.Cancel.label", JVal.str "v"), ("other", JVal.str "w")]
    (by decide) (by decide) (by decide) "menu.Cancel.label" (by decide) (by decide)

/-! ## Decimal representation round-trips through `parseInt` -/

theorem digitsVal_append (xs ys : List Char) : ∀ acc,
    digitsVal (xs ++ ys) acc = digitsVal ys (digitsVal xs acc) := by
  induction xs with
  | nil => intro acc; simp [digitsVal]
  | cons c rest ih => intro acc; simp [digitsVal, ih]

theorem digitChar_val (n : Nat) (h : n < 10) :
    (Nat.digitChar n).toNat - 48 = n := by
  interval_cases n <;> decide

theorem digitChar_isDigit (n : Nat) (h : n < 10) : (Nat.digitChar n).isDigit = true := by
  interval_cases n <;> decide

theorem natStrAux_spec : ∀ (fuel n : Nat), n < fuel →
    digitsVal (natStrAux fuel n) 0 = n ∧ natStrAux fuel n ≠ [] ∧
      ∀ c ∈ natStrAux fuel n, c.isDigit = true := by
  intro fuel
  induction fuel with
  | zero => intro n h; omega
  | succ fuel ih =>
    intro n h
    by_cases h10 : n < 10
    · refine ⟨?_, by simp [natStrAux, h10], ?_⟩
      · have hv := digitChar_val n h10
        simp [natStrAux, h10, digitsVal]
        omega
      · intro c hc
        simp [natStrAux, h10] at hc
        rw [hc]
        exact digitChar_isDigit n h10
    · have hd : n / 10 < fuel := by
        have := Nat.div_lt_self (by omega : 0 < n) (by omega : 1 < 10)
        omega
      obtain ⟨ihv, ihne, ihd⟩ := ih (n / 10) hd
      refine ⟨?_, ?_, ?_⟩
      · rw [show natStrAux (fuel + 1) n = natStrAux fuel (n / 10) ++ [Nat.digitChar (n % 10)] by
          simp [natStrAux, h10]]
        rw [digitsVal_append, ihv]
        have hv := digitChar_val (n % 10) (Nat.mod_lt n (by omega))
        simp [digitsVal]
        omega
      · simp [natStrAux, h10, ihne]
      · intro c hc
        simp [natStrAux, h10] at hc
        rcases hc with hc | hc
        · exact ihd c hc
        · rw [hc]
          exact digitChar_isDigit (n % 10) (Nat.mod_lt n (by omega))

theorem natStr_digitsVal (n : Nat) : digitsVal (natStr n).data 0 = n :=
  (natStrAux_spec (n + 1) n (Nat.lt_succ_self n)).1

theorem natStr_ne_nil (n : Nat) : (natStr n).data ≠ [] :=
  (natStrAux_spec (n + 1) n (Nat.lt_succ_self n)).2.1

theorem natStr_all_digits (n : Nat) : ∀ c ∈ (natStr n).data, c.isDigit = true :=
  (natStrAux_spec (n + 1) n (Nat.lt_succ_self n)).2.2

theorem natStr_inj (a b : Nat) (h : natStr a = natStr b) : a = b := by
  have := natStr_digitsVal a
  rw [h, natStr_digitsVal b] at this
  exact this.symm

theorem keyNum_natStr (n : Nat) : keyNum (natStr n) = n := by
  unfold keyNum
  exact natStr_digitsVal n

theorem jsSpace_of_digit (c : Char) (h : c.isDigit = true) : jsSpace c = false := by
  unfold jsSpace
  by_contra hc
  simp only [Bool.not_eq_false, decide_eq_true_eq] at hc
  rcases hc with rfl | rfl | rfl | rfl <;> exact absurd h (by decide)

theorem parseSign_of_digit (c : Char) (rest : List Char) (h : c.isDigit = true) :
    parseSign (c :: rest) = (1, c :: rest) := by
  unfold parseSign
  split
  · next heq =>
    rw [show c = '-' from (List.cons.injEq .. ▸ heq).1] at h
    exact absurd h (by decide)
  · next heq =>
    rw [show c = '+' from (List.cons.injEq .. ▸ heq).1] at h
    exact absurd h (by decide)
  · rfl

theorem parseHexMark_digits (cs : List Char) (h : ∀ c ∈ cs, c.isDigit = true) :
    parseHexMark cs = (10, cs) := by
  unfold parseHexMark
  split
  · next rest2 => exact absurd (h 'x' (by simp)) (by decide)
  · next rest2 => exact absurd (h 'X' (by simp)) (by decide)
  · rfl

theorem takeWhile_all {p : Char → Bool} : ∀ (l : List Char), (∀ c ∈ l, p c = true) →
    l.takeWhile p = l := by
  intro l
  induction l with
  | nil => intro h; simp
  | cons c rest ih =>
    intro h
    rw [List.takeWhile_cons, if_pos (h c (by simp))]
    rw [ih fun x hx => h x (List.mem_cons_of_mem c hx)]

theorem foldl_hexDigit (ds : List Char) : (∀ c ∈ ds, c.isDigit = true) → ∀ acc,
    ds.foldl (fun acc c => acc * 10 + hexDigitVal c) acc = digitsVal ds acc := by
  induction ds with
  | nil => intro _ acc; simp [digitsVal]
  | cons c rest ih =>
    intro h acc
    simp only [List.foldl_cons, digitsVal]
    rw [show hexDigitVal c = c.toNat - '0'.toNat by
      unfold hexDigitVal
      rw [if_pos (h c (by simp))]]
    exact ih (fun x hx => h x (List.mem_cons_of_mem c hx)) _

theorem dropWhile_jsSpace_digits (cs : List Char) (h : ∀ c ∈ cs, c.isDigit = true)
    (hne : cs ≠ []) : cs.dropWhile jsSpace = cs := by
  cases cs with
  | nil => simp at hne
  | cons c rest =>
    rw [List.dropWhile_cons, if_neg]
    rw [jsSpace_of_digit c (h c (by simp))]
    simp

/-- Parsing the decimal representation of `n` yields `n`. -/
theorem jsParseInt_natStr (n : Nat) : jsParseInt (natStr n) = some (Int.ofNat n) := by
  unfold jsParseInt
  rw [dropWhile_jsSpace_digits _ (natStr_all_digits n) (natStr_ne_nil n)]
  cases hcs : (natStr n).data with
  | nil => exact absurd hcs (natStr_ne_nil n)
  | cons c rest =>
    have hdig : ∀ x ∈ c :: rest, x.isDigit = true := by
      rw [← hcs]
      exact natStr_all_digits n
    rw [parseSign_of_digit c rest (hdig c (by simp))]
    simp only
    rw [parseHexMark_digits (c :: rest) hdig]
    simp only
    rw [takeWhile_all (c :: rest) fun x hx => by
      simp only [isDigitIn, if_neg (by omega : ¬ (10 : Nat) = 16)]
      exact hdig x hx]
    rw [if_neg (by simp)]
    rw [foldl_hexDigit (c :: rest) hdig 0]
    rw [show digitsVal (c :: rest) 0 = n from hcs ▸ natStr_digitsVal n]
    simp

/-- `isArrayIndex` holds of a canonical decimal string below the bound. -/
theorem isArrayIndex_natStr (n : Nat) :
    isArrayIndex (natStr n) = decide (n < 4294967295) := by
  unfold isArrayIndex
  rw [natStr_digitsVal n]
  have h1 : (natStr n).data.isEmpty = false := by
    cases hcs : (natStr n).data with
    | nil => exact absurd hcs (natStr_ne_nil n)
    | cons c rest => rfl
  have h2 : (natStr n).data.all Char.isDigit = true :=
    List.all_eq_true.2 fun c hc => natStr_all_digits n c hc
  simp [h1, h2]

/-! ## Claim C7: the array-inference boundary of unflatten -/

theorem insertByNum_of_lt {α : Type} (p : String × α) (l : List (String × α))
    (h : ∀ q ∈ l, keyNum p.1 < keyNum q.1) : insertByNum p l = p :: l := by
  cases l with
  | nil => rfl
  | cons q rest =>
    unfold insertByNum
    rw [if_neg]
    simpa using h q (by simp)

theorem sortByNum_sorted {α : Type} (l : List (String × α))
    (h : List.Pairwise (fun a b => keyNum a.1 < keyNum b.1) l) : sortByNum l = l := by
  induction l with
  | nil => rfl
  | cons p rest ih =>
    obtain ⟨h1, h2⟩ := List.pairwise_cons.1 h
    unfold sortByNum
    rw [ih h2, insertByNum_of_lt p rest h1]

theorem jsEntries_all_index {α : Type} (l : List (String × α))
    (hall : ∀ p ∈ l, isArrayIndex p.1 = true)
    (hsorted : List.Pairwise (fun a b => keyNum a.1 < keyNum b.1) l) : jsEntries l = l := by
  unfold jsEntries
  rw [List.filter_eq_self.2 hall]
  rw [show l.filter (fun p => !isArrayIndex p.1) = [] from
    List.filter_eq_nil_iff.2 fun p hp => by simp [hall p hp]]
  rw [sortByNum_sorted l hsorted]
  simp

theorem arrayLikeKeys_range : ∀ (len i : Nat),
    arrayLikeKeys i ((List.range' i len).map natStr) = true := by
  intro len
  induction len with
  | zero => intro i; rfl
  | succ len ih =>
    intro i
    rw [List.range'_succ]
    simp only [List.map_cons, arrayLikeKeys, jsParseInt_natStr]
    simp [ih (i + 1)]

/-- The canonical-keys hypothesis transfers to the structured facts the
conversion test needs. -/
theorem canonKeys_facts (fs : List (String × JVal))
    (hkeys : fs.map Prod.fst = (List.range fs.length).map natStr)
    (hlen : fs.length < 4294967295) :
    (∀ p ∈ fs, isArrayIndex p.1 = true) ∧
      List.Pairwise (fun a b : String × JVal => keyNum a.1 < keyNum b.1) fs := by
  constructor
  · intro p hp
    have hm : p.1 ∈ fs.map Prod.fst := List.mem_map.2 ⟨p, hp, rfl⟩
    rw [hkeys] at hm
    obtain ⟨j, hj, he⟩ := List.mem_map.1 hm
    rw [← he, isArrayIndex_natStr]
    simp only [decide_eq_true_eq]
    have := List.mem_range.1 hj
    omega
  · have h1 : List.Pairwise (· < ·) (List.range fs.length) := List.pairwise_lt_range _
    have h2 : List.Pairwise (fun a b : String => keyNum a < keyNum b)
        ((List.range fs.length).map natStr) := by
      rw [List.pairwise_map]
      exact h1.imp fun {a b} hab => by
        rw [keyNum_natStr, keyNum_natStr]
        exact hab
    rw [← hkeys, List.pairwise_map] at h2
    exact h2

/-- C7 (counterexample): the claim says a mapping with the non-canonical
numeric key `"00"` stays a keyed mapping, but `parseInt("00") === 0`, so
unflattening `{"a.00": "x"}` converts the inner mapping into a sequence. -/
theorem c7_counterexample :
    unflattenObject [("a.00", JVal.str "x")] = .ok (.obj [("a", JVal.arr [JVal.str "x"])]) ∧
      JVal.obj [("a", JVal.arr [JVal.str "x"])] ≠
        JVal.obj [("a", JVal.obj [("00", JVal.str "x")])] := by
  refine ⟨by decide, by decide⟩

/-- C7 (amended): a nested mapping in value position is converted to a
sequence iff each of its keys (in enumeration order) satisfies
`parseInt(key) === position`.  Mappings whose keys are exactly
`"0","1",...,"N-1"` always satisfy this and are converted; a gapped mapping
such as `{"0": "a", "2": "b"}` is not converted; the conversion recurses
through mapping values (so `{"a.0.b.0": "x"}` rebuilds nested sequences),
but non-canonical numeric keys accepted by `parseInt` (such as `"00"`) also
trigger it. -/
theorem convValue_boundary (fs : List (String × JVal))
    (hkeys : fs.map Prod.fst = (List.range fs.length).map natStr)
    (hlen : fs.length < 4294967295) :
    arrayLikeFields fs = true ∧
      convValue (.obj [("0", JVal.str "a"), ("2", JVal.str "b")]) =
        .ok (.obj [("0", JVal.str "a"), ("2", JVal.str "b")]) ∧
      unflattenObject [("a.0.b.0", JVal.str "x")] =
        .ok (.obj [("a", JVal.arr [JVal.obj [("b", JVal.arr [JVal.str "x"])]])]) := by
  obtain ⟨hall, hsorted⟩ := canonKeys_facts fs hkeys hlen
  refine ⟨?_, by decide, by decide⟩
  unfold arrayLikeFields
  rw [jsEntries_all_index fs hall hsorted]
  have := arrayLikeKeys_range fs.length 0
  rw [List.range_eq_range'] at hkeys
  rw [hkeys]
  exact this

/-- C7 (witness): the amended theorem applied to the canonical two-element
mapping `{"0": "a", "1": "b"}`. -/
theorem convValue_boundary_witness :
    arrayLikeFields [("0", JVal.str "a"), ("1", JVal.str "b")] = true ∧
      convValue (.obj [("0", JVal.str "a"), ("2", JVal.str "b")]) =
        .ok (.obj [("0", JVal.str "a"), ("2", JVal.str "b")]) ∧
      unflattenObject [("a.0.b.0", JVal.str "x")] =
        .ok (.obj [("a", JVal.arr [JVal.obj [("b", JVal.arr [JVal.str "x"])]])]) :=
  convValue_boundary [("0", JVal.str "a"), ("1", JVal.str "b")] (by decide) (by decide)

/-! ## Claim C8: idempotence of the normalise pass -/

/-- Pointwise sub-map: every binding of `c1` is a binding of `c2`. -/
def subMap (c1 c2 : FlatMap) : Prop :=
  ∀ k v, lookupJs c1 k = some v → lookupJs c2 k = some v

/-- The run only deletes entries: same document paths, each document's
content a sub-map of what it was. -/
def filesLe (F1 F2 : List (String × FlatMap)) : Prop :=
  F1.map Prod.fst = F2.map Prod.fst ∧
    ∀ p c1, lookupJs F1 p = some c1 → ∃ c2, lookupJs F2 p = some c2 ∧ subMap c1 c2

theorem subMap_refl (c : FlatMap) : subMap c c := fun _ _ h => h

theorem filesLe_refl (F : List (String × FlatMap)) : filesLe F F :=
  ⟨rfl, fun _ c1 h => ⟨c1, h, subMap_refl c1⟩⟩

theorem filesLe_trans {F1 F2 F3 : List (String × FlatMap)}
    (h12 : filesLe F1 F2) (h23 : filesLe F2 F3) : filesLe F1 F3 := by
  refine ⟨h12.1.trans h23.1, fun p c1 h1 => ?_⟩
  obtain ⟨c2, h2, s12⟩ := h12.2 p c1 h1
  obtain ⟨c3, h3, s23⟩ := h23.2 p c2 h2
  exact ⟨c3, h3, fun k v hv => s23 k v (s12 k v hv)⟩

theorem mem_fst_of_lookup {α : Type} (m : List (String × α)) (k : String) (v : α)
    (h : lookupJs m k = some v) : k ∈ m.map Prod.fst :=
  List.mem_map.2 ⟨(k, v), lookupJs_mem m k v h, rfl⟩

/-- Re-assigning the binding a key already has leaves the object unchanged. -/
theorem insertJs_lookup_id {α : Type} (m : List (String × α)) (k : String) (v : α)
    (h : lookupJs m k = some v) : insertJs m k v = m := by
  induction m with
  | nil => simp [lookupJs] at h
  | cons p rest ih =>
    obtain ⟨k2, w⟩ := p
    by_cases h2 : k2 = k
    · subst h2
      simp [lookupJs] at h
      simp [insertJs, h]
    · simp [lookupJs, h2] at h
      simp [insertJs, h2, ih h]

theorem foldl_erase_sublist (l : List (String × JVal)) :
    ∀ (c : FlatMap), (l.foldl (fun c2 p => eraseJs c2 p.1) c).Sublist c := by
  induction l with
  | nil => intro c; simp
  | cons p rest ih =>
    intro c
    simp only [List.foldl_cons]
    exact (ih (eraseJs c p.1)).trans (eraseJs_sublist c p.1)

/-- Every entry scanned by a successful `dupEntries` evaluated without
throwing. -/
theorem dupEntries_ok_each (files : List (String × FlatMap)) (bps : List String) :
    ∀ (l : List (String × JVal)) (dups : List (String × JVal)),
      dupEntries files bps l = .ok dups →
        ∀ k v, (k, v) ∈ l → ∃ d, entryDup files bps k v = .ok d := by
  intro l
  induction l with
  | nil => intro dups _ k v hm; simp at hm
  | cons p rest ih =>
    intro dups h k v hm
    obtain ⟨k0, v0⟩ := p
    unfold dupEntries at h
    split at h
    · exact absurd h (by simp)
    · next d he =>
      split at h
      · exact absurd h (by simp)
      · next tail hr =>
        rcases List.mem_cons.1 hm with h1 | h1
        · obtain ⟨e1, e2⟩ := Prod.mk.injEq .. ▸ h1
          subst e1
          subst e2
          exact ⟨d, he⟩
        · exact ih tail hr k v h1

/-- When every entry tests `ok false`, the duplicate list is empty. -/
theorem dupEntries_ok_nil (files : List (String × FlatMap)) (bps : List String) :
    ∀ (l : List (String × JVal)),
      (∀ k v, (k, v) ∈ l → entryDup files bps k v = .ok false) →
        dupEntries files bps l = .ok [] := by
  intro l
  induction l with
  | nil => intro _; rfl
  | cons p rest ih =>
    intro h
    obtain ⟨k0, v0⟩ := p
    unfold dupEntries
    rw [h k0 v0 (by simp)]
    rw [ih fun k v hm => h k v (List.mem_cons_of_mem _ hm)]
    rfl

/-- Shape of a successful per-document normalise step. -/
theorem normaliseDoc_ok_inv (fileLocaleSource : String) (brandPosition : Nat)
    (baseBrandName : String) (exB : String → Bool) (files : List (String × FlatMap))
    (filePath : String) (content c2 : FlatMap) (ch : Bool)
    (h : normaliseDoc fileLocaleSource brandPosition baseBrandName exB files filePath content =
      .ok (c2, ch)) :
    ∃ locale, getFileLocale filePath fileLocaleSource = some locale ∧
      ∃ dups, dupEntries files
          (baseFilesOf filePath locale (jsSlice locale 2) (getFileBrand filePath brandPosition)
            brandPosition baseBrandName exB) (jsEntries content) = .ok dups ∧
        c2 = dups.foldl (fun c p => eraseJs c p.1) content ∧ ch = !dups.isEmpty := by
  unfold normaliseDoc at h
  split at h
  · exact absurd h (by simp)
  · next locale hloc =>
    simp only at h
    split at h
    · exact absurd h (by simp)
    · next dups hd =>
      injection h with h2
      obtain ⟨e1, e2⟩ := Prod.mk.injEq .. ▸ h2
      exact ⟨locale, hloc, dups, hd, e1.symm, e2.symm⟩

/-- If an entry tests non-duplicate against a base content, it still tests
non-duplicate (without throwing) against any sub-map of that content. -/
theorem entryDupAgainst_mono (bcF bcT : FlatMap) (k : String) (v : JVal)
    (hsub : subMap bcF bcT)
    (hT : entryDupAgainst bcT k v = .ok false) :
    entryDupAgainst bcF k v = .ok false := by
  cases v with
  | str s =>
    simp only [entryDupAgainst] at hT ⊢
    have hTne : lookupJs bcT k ≠ some (JVal.str s) := by
      intro he
      rw [if_pos he] at hT
      exact absurd hT (by simp)
    have hFne : lookupJs bcF k ≠ some (JVal.str s) := by
      intro he
      exact hTne (hsub k _ he)
    rw [if_neg hTne] at hT
    rw [if_neg hFne]
    by_cases hw : strWrapped s = true
    · rw [if_pos hw] at hT ⊢
      cases hbF : lookupJs bcF k with
      | none => rfl
      | some w =>
        rw [hsub k w hbF] at hT
        exact hT
    · rw [if_neg hw] at hT ⊢
  | num n =>
    simp only [entryDupAgainst] at hT
    by_cases he : lookupJs bcT k = some (JVal.num n)
    · rw [if_pos he] at hT; exact absurd hT (by simp)
    · rw [if_neg he] at hT; exact absurd hT (by simp)
  | bool b =>
    simp only [entryDupAgainst] at hT
    by_cases he : lookupJs bcT k = some (JVal.bool b)
    · rw [if_pos he] at hT; exact absurd hT (by simp)
    · rw [if_neg he] at hT; exact absurd hT (by simp)
  | null =>
    simp only [entryDupAgainst] at hT
    by_cases he : lookupJs bcT k = some JVal.null
    · rw [if_pos he] at hT; exact absurd hT (by simp)
    · rw [if_neg he] at hT; exact absurd hT (by simp)
  | obj fs =>
    simp only [entryDupAgainst] at hT
    by_cases he : lookupJs bcT k = some (JVal.obj fs)
    · rw [if_pos he] at hT; exact absurd hT (by simp)
    · rw [if_neg he] at hT; exact absurd hT (by simp)
  | arr es =>
    simp only [entryDupAgainst] at hT
    by_cases he : lookupJs bcT k = some (JVal.arr es)
    · rw [if_pos he] at hT; exact absurd hT (by simp)
    · rw [if_neg he] at hT; exact absurd hT (by simp)

/-- The non-duplicate verdict carries over from the state at first-run time
to any later (shrunk) state, without throwing. -/
theorem entryDup_mono (F T : List (String × FlatMap)) (hle : filesLe F T) :
    ∀ (bps : List String) (k : String) (v : JVal),
      entryDup T bps k v = .ok false → entryDup F bps k v = .ok false := by
  intro bps
  induction bps with
  | nil => intro k v _; rfl
  | cons bp rest ih =>
    intro k v hT
    unfold entryDup at hT ⊢
    split at hT
    · exact absurd hT (by simp)
    · next bcT hbT =>
      have hbpk : bp ∈ F.map Prod.fst := hle.1 ▸ mem_fst_of_lookup T bp bcT hbT
      obtain ⟨bcF, hbF⟩ := lookupJs_isSome_of_mem_fst F bp hbpk
      obtain ⟨bcT2, hbT2, hsub⟩ := hle.2 bp bcF hbF
      rw [hbT] at hbT2
      injection hbT2 with hbT2
      subst hbT2
      rw [hbF]
      split at hT
      · next he => exact absurd hT (by simp)
      · next he => exact absurd hT (by simp)
      · next he =>
        split
        · next hne => exact absurd hne (by simp)
        · next bc hbc =>
          injection hbc with hbc
          subst hbc
          rw [entryDupAgainst_mono bcF bcT k v hsub he]
          exact ih k v hT

/-- Paths outside the processed list keep their content. -/
theorem normaliseGo_frame (fls : String) (bpos : Nat) (bb : String) (exB : String → Bool) :
    ∀ (l : List (String × FlatMap)) (F : List (String × FlatMap)) (ch : List String)
      (F2 : List (String × FlatMap)) (ch2 : List String),
      normaliseGo fls bpos bb exB l (F, ch) = .ok (F2, ch2) →
      ∀ q, q ∉ l.map Prod.fst → lookupJs F2 q = lookupJs F q := by
  intro l
  induction l with
  | nil =>
    intro F ch F2 ch2 h q _
    simp only [normaliseGo] at h
    injection h with h2
    obtain ⟨e1, _⟩ := Prod.mk.injEq .. ▸ h2
    rw [← e1]
  | cons pc rest ih =>
    intro F ch F2 ch2 h q hq
    obtain ⟨p, c⟩ := pc
    unfold normaliseGo at h
    split at h
    · exact absurd h (by simp)
    · next c2 ch1 hdoc =>
      simp only [List.map_cons, List.mem_cons, not_or] at hq
      rw [ih _ _ _ _ h q hq.2]
      exact lookupJs_insertJs_ne F p q c2 hq.1

theorem subMap_of_sublist (c2 c : FlatMap) (hs : c2.Sublist c)
    (hnd : (c.map Prod.fst).Nodup) : subMap c2 c := fun k v hv =>
  lookupJs_of_mem c k v hnd (hs.mem (lookupJs_mem c2 k v hv))

theorem filesLe_insert (F : List (String × FlatMap)) (p : String) (c c2 : FlatMap)
    (hc : lookupJs F p = some c) (hnd : (c.map Prod.fst).Nodup) (hs : c2.Sublist c) :
    filesLe (insertJs F p c2) F := by
  refine ⟨insertJs_map_fst_of_mem F p c2 (mem_fst_of_lookup F p c hc), fun q c1 h1 => ?_⟩
  by_cases hq : q = p
  · subst hq
    rw [lookupJs_insertJs_self] at h1
    injection h1 with h1
    subst h1
    exact ⟨c, hc, subMap_of_sublist c2 c hs hnd⟩
  · rw [lookupJs_insertJs_ne F p q c2 hq] at h1
    exact ⟨c1, h1, subMap_refl c1⟩

/-- The base-file list normalise derives for a document path. -/
def docBps (_fls : String) (bpos : Nat) (bb : String) (exB : String → Bool)
    (p locale : String) : List String :=
  baseFilesOf p locale (jsSlice locale 2) (getFileBrand p bpos) bpos bb exB

/-- Invariant established by one full normalise pass: the final store shrank
from every intermediate state, and every surviving entry of every processed
document tested non-duplicate (without throwing) at its processing state. -/
theorem runOne_inv (fls : String) (bpos : Nat) (bb : String) (exB : String → Bool) :
    ∀ (l : List (String × FlatMap)) (F : List (String × FlatMap)) (ch0 : List String)
      (F2 : List (String × FlatMap)) (chF : List String),
      normaliseGo fls bpos bb exB l (F, ch0) = .ok (F2, chF) →
      (∀ p c, (p, c) ∈ l → lookupJs F p = some c) →
      ((l.map Prod.fst).Nodup) →
      (∀ p c, (p, c) ∈ l → (c.map Prod.fst).Nodup) →
      filesLe F2 F ∧
        ∀ p c, (p, c) ∈ l → ∃ T, filesLe F2 T ∧
          ∃ locale, getFileLocale p fls = some locale ∧
            ∃ c2, lookupJs F2 p = some c2 ∧
              ∀ k v, (k, v) ∈ c2 →
                (k, v) ∈ c ∧ entryDup T (docBps fls bpos bb exB p locale) k v = .ok false := by
  intro l
  induction l with
  | nil =>
    intro F ch0 F2 chF h _ _ _
    simp only [normaliseGo] at h
    injection h with h2
    obtain ⟨e1, _⟩ := Prod.mk.injEq .. ▸ h2
    subst e1
    exact ⟨filesLe_refl F, fun p c hm => absurd hm (by simp)⟩
  | cons pc rest ih =>
    intro F ch0 F2 chF h hl hndl hndc
    obtain ⟨p, c⟩ := pc
    unfold normaliseGo at h
    split at h
    · exact absurd h (by simp)
    · next c2 ch1 hdoc =>
      have hcF : lookupJs F p = some c := hl p c (by simp)
      have hndcc : (c.map Prod.fst).Nodup := hndc p c (by simp)
      obtain ⟨locale, hloc, dups, hd, hc2, hch⟩ :=
        normaliseDoc_ok_inv fls bpos bb exB F p c c2 ch1 hdoc
      have hsub2 : c2.Sublist c := hc2 ▸ foldl_erase_sublist dups c
      have hpnr : p ∉ rest.map Prod.fst := (List.nodup_cons.1 (by simpa using hndl)).1
      have hlF1 : ∀ q cq, (q, cq) ∈ rest → lookupJs (insertJs F p c2) q = some cq := by
        intro q cq hm
        have hqne : q ≠ p := fun e => hpnr (e ▸ List.mem_map.2 ⟨(q, cq), hm, rfl⟩)
        rw [lookupJs_insertJs_ne F p q c2 hqne]
        exact hl q cq (List.mem_cons_of_mem _ hm)
      obtain ⟨ihle, ihdocs⟩ := ih (insertJs F p c2) _ F2 chF h hlF1
        (by simpa using (List.nodup_cons.1 (by simpa using hndl)).2)
        (fun q cq hm => hndc q cq (List.mem_cons_of_mem _ hm))
      have hstep : filesLe (insertJs F p c2) F := filesLe_insert F p c c2 hcF hndcc hsub2
      have hleF : filesLe F2 F := filesLe_trans ihle hstep
      refine ⟨hleF, fun q cq hm => ?_⟩
      rcases List.mem_cons.1 hm with h1 | h1
      · obtain ⟨e1, e2⟩ := Prod.mk.injEq .. ▸ h1
        subst e1
        subst e2
        refine ⟨F, hleF, locale, hloc, c2, ?_, fun k v hkv => ?_⟩
        · rw [normaliseGo_frame fls bpos bb exB rest _ _ F2 chF h q hpnr]
          exact lookupJs_insertJs_self F q c2
        · refine ⟨hsub2.mem hkv, ?_⟩
          have hmj : (k, v) ∈ jsEntries cq := (mem_jsEntries _ cq).2 (hsub2.mem hkv)
          obtain ⟨d, hde⟩ := dupEntries_ok_each F _ _ dups hd k v hmj
          have hdval := entryDup_ok F _ k v d hde
          cases hdv : d with
          | false => rw [hdv] at hde; exact hde
          | true =>
            exfalso
            have hdup : dupAnyBase F
                (baseFilesOf q locale (jsSlice locale 2) (getFileBrand q bpos) bpos bb exB)
                k v = true := by
              rw [← hdval, hdv]
            have hfil := dupEntries_ok_filter F _ _ dups hd
            have hmem : (k, v) ∈ dups := by
              rw [hfil]
              exact List.mem_filter.2 ⟨hmj, hdup⟩
            have hnone : lookupJs c2 k = none := by
              rw [hc2, lookup_foldl_erase dups cq hndcc k]
              rw [if_pos (List.mem_map.2 ⟨(k, v), hmem, rfl⟩)]
            have hnd2 : (c2.map Prod.fst).Nodup := (hsub2.map Prod.fst).nodup hndcc
            rw [lookupJs_of_mem c2 k v hnd2 hkv] at hnone
            exact Option.noConfusion hnone
      · obtain ⟨T, hT, rest2⟩ := ihdocs q cq h1
        exact ⟨T, hT, rest2⟩

/-- Second pass: every document whose surviving entries already tested
non-duplicate at some state the current store shrank from produces no
further deletions, and the store is untouched. -/
theorem runTwo_noop (fls : String) (bpos : Nat) (bb : String) (exB : String → Bool) :
    ∀ (l : List (String × FlatMap)) (F2 : List (String × FlatMap)) (ch : List String),
      (∀ p c2, (p, c2) ∈ l → lookupJs F2 p = some c2 ∧
        ∃ T, filesLe F2 T ∧ ∃ locale, getFileLocale p fls = some locale ∧
          ∀ k v, (k, v) ∈ c2 →
            entryDup T (docBps fls bpos bb exB p locale) k v = .ok false) →
      normaliseGo fls bpos bb exB l (F2, ch) = .ok (F2, ch) := by
  intro l
  induction l with
  | nil => intro F2 ch _; rfl
  | cons pc rest ih =>
    intro F2 ch hl
    obtain ⟨p, c2⟩ := pc
    obtain ⟨hlk, T, hle, locale, hloc, hsurv⟩ := hl p c2 (by simp)
    have hdoc : normaliseDoc fls bpos bb exB F2 p c2 = .ok (c2, false) := by
      unfold normaliseDoc
      rw [hloc]
      simp only
      rw [dupEntries_ok_nil F2
        (baseFilesOf p locale (jsSlice locale 2) (getFileBrand p bpos) bpos bb exB)
        (jsEntries c2) fun k v hm =>
          entryDup_mono F2 T hle _ k v (hsurv k v ((mem_jsEntries _ c2).1 hm))]
      rfl
    unfold normaliseGo
    rw [hdoc]
    simp only [false_and, if_neg, lookupJs, Bool.false_eq_true]
    rw [insertJs_lookup_id F2 p c2 hlk]
    have := ih F2 ch fun q cq hm => hl q cq (List.mem_cons_of_mem _ hm)
    simpa using this

/-- C8: the normalise mutation pass is idempotent on document contents — a
second run over the documents produced by a successful first run deletes
nothing further and reports an empty changed-set. -/
theorem normalisePass_idempotent (fls : String) (bpos : Nat) (bb : String)
    (exB : String → Bool) (files files2 : List (String × FlatMap)) (chF : List String)
    (hndk : (files.map Prod.fst).Nodup)
    (hndc : ∀ pc ∈ files, ((Prod.snd pc : FlatMap).map Prod.fst).Nodup)
    (h : normalisePass fls bpos bb exB files = .ok (files2, chF)) :
    normalisePass fls bpos bb exB files2 = .ok (files2, []) := by
  unfold normalisePass at h ⊢
  have hl1 : ∀ p c, (p, c) ∈ jsEntries files → lookupJs files p = some c :=
    fun p c hm => lookupJs_of_mem files p c hndk ((mem_jsEntries _ files).1 hm)
  have hnd1 : ((jsEntries files).map Prod.fst).Nodup := jsEntries_nodup_fst files hndk
  have hndc1 : ∀ p c, (p, c) ∈ jsEntries files → (c.map Prod.fst).Nodup :=
    fun p c hm => hndc (p, c) ((mem_jsEntries _ files).1 hm)
  obtain ⟨hle, hdocs⟩ := runOne_inv fls bpos bb exB (jsEntries files) files [] files2 chF
    h hl1 hnd1 hndc1
  apply runTwo_noop
  intro p c2 hm
  have hm2 : (p, c2) ∈ files2 := (mem_jsEntries _ files2).1 hm
  have hndk2 : (files2.map Prod.fst).Nodup := by
    rw [hle.1]
    exact hndk
  have hlk2 : lookupJs files2 p = some c2 := lookupJs_of_mem files2 p c2 hndk2 hm2
  have hpk : p ∈ files.map Prod.fst := by
    rw [← hle.1]
    exact mem_fst_of_lookup files2 p c2 hlk2
  obtain ⟨c, hc⟩ := lookupJs_isSome_of_mem_fst files p hpk
  have hcm : (p, c) ∈ jsEntries files := (mem_jsEntries _ files).2 (lookupJs_mem files p c hc)
  obtain ⟨T, hT, locale, hloc, c2b, hc2b, hsurv⟩ := hdocs p c hcm
  rw [hlk2] at hc2b
  injection hc2b with hc2b
  subst hc2b
  exact ⟨hlk2, T, hT, locale, hloc, fun k v hkv => (hsurv k v hkv).2⟩

/-- C8 (witness): a concrete two-document store; the first pass removes the
redundant `title` from the brand file, the second pass changes nothing. -/
theorem normalisePass_idempotent_witness :
    normalisePass "filename" 2 "core"
        (fun p => decide (p = "w/core/x/en.json") || decide (p = "w/acme/x/en.json"))
        [("w/core/x/en.json", [("title", JVal.str "Home")]),
         ("w/acme/x/en.json", [("other", JVal.str "X")])] =
      .ok ([("w/core/x/en.json", [("title", JVal.str "Home")]),
            ("w/acme/x/en.json", [("other", JVal.str "X")])], []) :=
  normalisePass_idempotent "filename" 2 "core"
    (fun p => decide (p = "w/core/x/en.json") || decide (p = "w/acme/x/en.json"))
    [("w/core/x/en.json", [("title", JVal.str "Home")]),
     ("w/acme/x/en.json", [("title", JVal.str "Home"), ("other", JVal.str "X")])]
    [("w/core/x/en.json", [("title", JVal.str "Home")]),
     ("w/acme/x/en.json", [("other", JVal.str "X")])]
    ["w/acme/x/en.json"]
    (by decide) (by decide) (by decide)

/-! ## Claim C1: the flatten/unflatten round trip

The strategy: `deflate` replaces every sequence by its index-keyed mapping
image.  Flattening a tree equals flattening its deflation; building the flat
map back yields exactly the deflation; and `convertArrayLikeObjects`
restores the deflated sequences.  The `good*` predicates carve out the trees
for which this cycle is the identity. -/

mutual
def deflate : JVal → JVal
  | .str s => .str s
  | .num n => .num n
  | .bool b => .bool b
  | .null => .null
  | .obj fs => .obj (deflateFields fs)
  | .arr es => .obj (deflateElems es 0)

def deflateFields : List (String × JVal) → List (String × JVal)
  | [] => []
  | (k, v) :: rest => (k, deflate v) :: deflateFields rest

def deflateElems : List JVal → Nat → List (String × JVal)
  | [], _ => []
  | e :: rest, i => (natStr i, deflate e) :: deflateElems rest (i + 1)
end

/-- The key contains no `"."`, so flatten/unflatten path joining splits it
back intact. -/
def dotFreeK (k : String) : Bool := !k.data.contains '.'

def isStrB : JVal → Bool
  | .str _ => true
  | _ => false

mutual
/-- A value sitting as the value of a mapping field, for which the round
trip is the identity: text leaves; mappings that are non-empty,
duplicate-free and not array-like; non-empty sequences (of bounded length,
as any realizable array is). -/
def goodFV : JVal → Bool
  | .str _ => true
  | .obj fs =>
    !fs.isEmpty && decide ((fs.map Prod.fst).Nodup) && !arrayLikeFields fs && goodFields fs
  | .arr es => !es.isEmpty && decide (es.length < 4294967295) && goodElems es
  | _ => false

def goodFields : List (String × JVal) → Bool
  | [] => true
  | (k, v) :: rest =>
    dotFreeK k && (!decide (k = "") || isStrB v) && goodFV v && goodFields rest

def goodElems : List JVal → Bool
  | [] => true
  | e :: rest => goodElem e && goodElems rest

/-- An element of a sequence: `convertArrayLikeObjects` never converts the
elements themselves, so sequences directly inside sequences are excluded,
while mappings (even array-like ones) survive as mappings. -/
def goodElem : JVal → Bool
  | .str _ => true
  | .obj fs => !fs.isEmpty && decide ((fs.map Prod.fst).Nodup) && goodFields fs
  | _ => false
end

/-- A whole document: a mapping whose keys additionally are not array-index
keys (so the flat map's enumeration order is its insertion order). -/
def goodRoot : JVal → Bool
  | .obj fs =>
    decide ((fs.map Prod.fst).Nodup) && goodFields fs && fs.all fun p => !isArrayIndex p.1
  | _ => false

mutual
/-- Deflated counterpart of `goodFV`: arrow-free trees ready for building. -/
def ftVal : JVal → Bool
  | .str _ => true
  | .obj fs => !fs.isEmpty && decide ((fs.map Prod.fst).Nodup) && ftFields fs
  | _ => false

def ftFields : List (String × JVal) → Bool
  | [] => true
  | (k, v) :: rest =>
    dotFreeK k && (!decide (k = "") || isStrB v) && ftVal v && ftFields rest
end

/-- Map over the values of an association list, keeping the keys. -/
def mapVal (f : JVal → JVal) (l : List (String × JVal)) : List (String × JVal) :=
  l.map fun p => (p.1, f p.2)

/-- Prefix every key with `p` and a separator. -/
def mapPref (p : String) (l : List (String × JVal)) : List (String × JVal) :=
  l.map fun q => (p ++ "." ++ q.1, q.2)

/-- The flat map a flatten of an arrow-free tree produces, written
structurally. -/
def expandF (pre : String) : List (String × JVal) → List (String × JVal)
  | [] => []
  | (k, v) :: rest =>
    (match v with
     | .obj gs => expandF (joinPath pre k) gs
     | w => [(joinPath pre k, w)]) ++ expandF pre rest

/-- One step of the flat-key walk of `unflattenObject`. -/
def buildStep (acc : JVal) (q : String × JVal) : JVal :=
  setPath acc (jsSplit '.' q.1) q.2

theorem deflateFields_eq_mapVal (fs : List (String × JVal)) :
    deflateFields fs = mapVal deflate fs := by
  induction fs with
  | nil => rfl
  | cons p rest ih =>
    obtain ⟨k, v⟩ := p
    simp [deflateFields, mapVal, ih]

theorem deflateElems_keys (es : List JVal) : ∀ i,
    (deflateElems es i).map Prod.fst = (List.range' i es.length).map natStr := by
  induction es with
  | nil => intro i; rfl
  | cons e rest ih =>
    intro i
    rw [show (e :: rest).length = rest.length + 1 from rfl, List.range'_succ]
    simp [deflateElems, ih (i + 1)]

theorem isObjType_deflate (v : JVal) : isObjType (deflate v) = isObjType v := by
  cases v <;> rfl

theorem deflate_of_not_obj (v : JVal) (h : isObjType v = false) : deflate v = v := by
  cases v <;> first | rfl | simp [isObjType] at h

/-! ### Path-string lemmas -/

theorem joinPath_empty (k : String) : joinPath "" k = k := by
  unfold joinPath
  rw [if_pos (by decide : ("".isEmpty : Bool) = true)]
  cases k
  rfl

theorem string_mk_data (s : String) : String.mk s.data = s := by
  cases s
  rfl

theorem splitCh_no_sep (sep : Char) : ∀ (k : List Char), k.contains sep = false →
    splitCh sep k = [k] := by
  intro k
  induction k with
  | nil => intro _; rfl
  | cons c rest ih =>
    intro h
    simp only [List.contains_cons, Bool.or_eq_false_iff] at h
    have hc : ¬ c = sep := by
      intro e
      rw [e] at h
      simp at h
    rw [splitCh, if_neg hc, ih h.2]

theorem jsSplit_dotfree (k : String) (h : dotFreeK k = true) : jsSplit '.' k = [k] := by
  unfold jsSplit
  rw [splitCh_no_sep '.' k.data (by simpa [dotFreeK] using h)]
  simp [string_mk_data]

theorem splitCh_append (sep : Char) : ∀ (a b : List Char), a.contains sep = false →
    splitCh sep (a ++ sep :: b) = a :: splitCh sep b := by
  intro a
  induction a with
  | nil => intro b _; simp [splitCh]
  | cons c a2 ih =>
    intro b h
    simp only [List.contains_cons, Bool.or_eq_false_iff] at h
    have hc : ¬ c = sep := by
      intro e
      rw [e] at h
      simp at h
    rw [List.cons_append, splitCh, if_neg hc, ih b h.2]

theorem data_concat_dot (k x : String) : (k ++ "." ++ x).data = k.data ++ '.' :: x.data := by
  simp

theorem jsSplit_concat (k x : String) (h : dotFreeK k = true) :
    jsSplit '.' (k ++ "." ++ x) = k :: jsSplit '.' x := by
  unfold jsSplit
  rw [data_concat_dot, splitCh_append '.' k.data x.data (by simpa [dotFreeK] using h)]
  simp [string_mk_data]

theorem contains_concat_dot (k x : String) : (k ++ "." ++ x).data.contains '.' = true := by
  rw [data_concat_dot]
  simp

theorem isArrayIndex_of_dot (s : String) (h : s.data.contains '.' = true) :
    isArrayIndex s = false := by
  have hm : '.' ∈ s.data := by simpa using h
  unfold isArrayIndex
  have hd : s.data.all Char.isDigit = false := by
    cases hcase : s.data.all Char.isDigit
    · rfl
    · exact absurd (List.all_eq_true.1 hcase '.' hm) (by decide)
  rw [hd]
  simp

theorem dotFreeK_natStr (n : Nat) : dotFreeK (natStr n) = true := by
  unfold dotFreeK
  cases hcase : (natStr n).data.contains '.'
  · rfl
  · have hm : '.' ∈ (natStr n).data := by simpa using hcase
    exact absurd (natStr_all_digits n '.' hm) (by decide)

theorem natStr_ne_empty (n : Nat) : ¬ natStr n = "" := by
  intro h
  have := natStr_ne_nil n
  rw [h] at this
  exact this rfl

/-- The first dot-separated segment of a flat key. -/
def fsg (s : String) : String := String.mk (s.data.takeWhile fun c => !(c = '.'))

theorem fsg_dotfree (k : String) (h : dotFreeK k = true) : fsg k = k := by
  unfold fsg
  rw [takeWhile_all k.data fun c hc => by
    simp only [Bool.not_eq_true', decide_eq_false_iff_not]
    intro e
    rw [e] at hc
    simp [dotFreeK] at h
    exact absurd hc h]

theorem takeWhile_append_stop {p : Char → Bool} : ∀ (a : List Char) (b : List Char) (c0 : Char),
    (∀ c ∈ a, p c = true) → p c0 = false →
      (a ++ c0 :: b).takeWhile p = a := by
  intro a
  induction a with
  | nil =>
    intro b c0 _ h0
    simp [List.takeWhile_cons, h0]
  | cons c a2 ih =>
    intro b c0 h h0
    rw [List.cons_append, List.takeWhile_cons, if_pos (h c (by simp))]
    rw [ih b c0 (fun x hx => h x (List.mem_cons_of_mem c hx)) h0]

theorem fsg_concat (k x : String) (h : dotFreeK k = true) : fsg (k ++ "." ++ x) = k := by
  unfold fsg
  rw [data_concat_dot]
  rw [takeWhile_append_stop k.data x.data '.' ?ha (by decide)]
  case ha =>
    intro c hc
    simp only [Bool.not_eq_true', decide_eq_false_iff_not]
    intro e
    rw [e] at hc
    simp [dotFreeK] at h
    exact absurd hc h

/-! ### Appending lemmas for object updates -/

theorem insertJs_fresh_append {α : Type} (m : List (String × α)) (k : String) (v : α)
    (h : k ∉ m.map Prod.fst) : insertJs m k v = m ++ [(k, v)] := by
  induction m with
  | nil => rfl
  | cons p rest ih =>
    obtain ⟨k2, w⟩ := p
    simp only [List.map_cons, List.mem_cons, not_or] at h
    have h2 : ¬ k2 = k := fun e => h.1 e.symm
    simp [insertJs, h2, ih h.2]

theorem mergeJs_append (sub : List (String × JVal)) : ∀ (acc : List (String × JVal)),
    (sub.map Prod.fst).Nodup → (∀ k ∈ sub.map Prod.fst, k ∉ acc.map Prod.fst) →
      mergeJs acc sub = acc ++ sub := by
  induction sub with
  | nil => intro acc _ _; simp [mergeJs]
  | cons p rest ih =>
    intro acc hnd hfr
    obtain ⟨k, v⟩ := p
    simp only [List.map_cons, List.nodup_cons] at hnd
    unfold mergeJs
    simp only [List.foldl_cons]
    rw [show insertJs acc k v = acc ++ [(k, v)] from
      insertJs_fresh_append acc k v (hfr k (by simp))]
    have h2 := ih (acc ++ [(k, v)]) hnd.2 fun q hq => by
      simp only [List.map_append, List.mem_append, not_or]
      refine ⟨hfr q (by simp [hq]), ?_⟩
      simp only [List.map_cons, List.map_nil, List.mem_singleton]
      intro e
      rw [e] at hq
      exact hnd.1 hq
    unfold mergeJs at h2
    rw [h2]
    simp

theorem lookupJs_append_self {α : Type} (F : List (String × α)) (k : String) (x : α)
    (h : k ∉ F.map Prod.fst) : lookupJs (F ++ [(k, x)]) k = some x := by
  induction F with
  | nil => simp [lookupJs]
  | cons p rest ih =>
    obtain ⟨k2, w⟩ := p
    simp only [List.map_cons, List.mem_cons, not_or] at h
    have h2 : ¬ k2 = k := fun e => h.1 e.symm
    simp only [List.cons_append, lookupJs, if_neg h2]
    exact ih h.2

theorem insertJs_append_last {α : Type} (F : List (String × α)) (k : String) (x y : α)
    (h : k ∉ F.map Prod.fst) : insertJs (F ++ [(k, x)]) k y = F ++ [(k, y)] := by
  induction F with
  | nil => simp [insertJs]
  | cons p rest ih =>
    obtain ⟨k2, w⟩ := p
    simp only [List.map_cons, List.mem_cons, not_or] at h
    have h2 : ¬ k2 = k := fun e => h.1 e.symm
    simp only [List.cons_append, insertJs, if_neg h2]
    rw [List.append_eq, ih h.2]

/-! ### Flattening commutes with deflation -/

mutual
theorem flattenObject_deflate : ∀ (v : JVal) (pre : String),
    flattenObject (deflate v) pre = flattenObject v pre
  | .str s, pre => rfl
  | .num n, pre => rfl
  | .bool b, pre => rfl
  | .null, pre => rfl
  | .obj fs, pre => by
    simp only [deflate, flattenObject]
    exact flattenList_deflateFields fs pre []
  | .arr es, pre => by
    simp only [deflate, flattenObject]
    exact flattenList_deflateElems es 0 pre []

theorem flattenList_deflateFields : ∀ (fs : List (String × JVal)) (pre : String) (acc : FlatMap),
    flattenList (deflateFields fs) pre acc = flattenList fs pre acc
  | [], pre, acc => rfl
  | (k, v) :: rest, pre, acc => by
    simp only [deflateFields, flattenList, isObjType_deflate]
    by_cases ho : isObjType v
    · rw [if_pos ho, if_pos ho, flattenObject_deflate v (joinPath pre k)]
      cases flattenObject v (joinPath pre k) with
      | error e => rfl
      | ok sub => exact flattenList_deflateFields rest pre (mergeJs acc sub)
    · rw [if_neg ho, if_neg ho, deflate_of_not_obj v (by simpa using ho)]
      exact flattenList_deflateFields rest pre (insertJs acc (joinPath pre k) v)

theorem flattenList_deflateElems : ∀ (es : List JVal) (i : Nat) (pre : String) (acc : FlatMap),
    flattenList (deflateElems es i) pre acc = flattenArr es i pre acc
  | [], i, pre, acc => rfl
  | e :: rest, i, pre, acc => by
    simp only [deflateElems, flattenList, flattenArr, isObjType_deflate]
    by_cases ho : isObjType e
    · rw [if_pos ho, if_pos ho, flattenObject_deflate e (joinPath pre (natStr i))]
      cases flattenObject e (joinPath pre (natStr i)) with
      | error e2 => rfl
      | ok sub => exact flattenList_deflateElems rest (i + 1) pre (mergeJs acc sub)
    · rw [if_neg ho, if_neg ho, deflate_of_not_obj e (by simpa using ho)]
      exact flattenList_deflateElems rest (i + 1) pre (insertJs acc (joinPath pre (natStr i)) e)
end

/-! ### Enumeration order commutes with value maps -/

theorem mapVal_cons (f : JVal → JVal) (k : String) (v : JVal) (rest : List (String × JVal)) :
    mapVal f ((k, v) :: rest) = (k, f v) :: mapVal f rest := rfl

theorem mapVal_append (f : JVal → JVal) (a b : List (String × JVal)) :
    mapVal f (a ++ b) = mapVal f a ++ mapVal f b := by
  simp [mapVal]

theorem mapVal_keys (f : JVal → JVal) (l : List (String × JVal)) :
    (mapVal f l).map Prod.fst = l.map Prod.fst := by
  induction l with
  | nil => rfl
  | cons p rest ih =>
    obtain ⟨k, v⟩ := p
    rw [mapVal_cons]
    simp only [List.map_cons]
    rw [ih]

theorem filter_mapVal (f : JVal → JVal) (p : String → Bool) (l : List (String × JVal)) :
    (mapVal f l).filter (fun q => p q.1) = mapVal f (l.filter fun q => p q.1) := by
  induction l with
  | nil => rfl
  | cons q rest ih =>
    obtain ⟨k, v⟩ := q
    rw [mapVal_cons]
    cases hp : p k
    · simp [List.filter_cons, hp, ih]
    · simp [List.filter_cons, hp, ih, mapVal_cons]

theorem insertByNum_mapVal (f : JVal → JVal) (k : String) (v : JVal) :
    ∀ l, insertByNum (k, f v) (mapVal f l) = mapVal f (insertByNum (k, v) l)
  | [] => rfl
  | q :: rest => by
    obtain ⟨k2, w⟩ := q
    rw [mapVal_cons]
    by_cases hle : keyNum k2 ≤ keyNum k
    · simp [insertByNum, hle, insertByNum_mapVal f k v rest, mapVal_cons]
    · simp [insertByNum, hle, mapVal_cons]

theorem sortByNum_mapVal (f : JVal → JVal) : ∀ l, sortByNum (mapVal f l) = mapVal f (sortByNum l)
  | [] => rfl
  | p :: rest => by
    obtain ⟨k, v⟩ := p
    show insertByNum (k, f v) (sortByNum (mapVal f rest)) =
      mapVal f (insertByNum (k, v) (sortByNum rest))
    rw [sortByNum_mapVal f rest, insertByNum_mapVal f k v (sortByNum rest)]

theorem jsEntries_mapVal (f : JVal → JVal) (l : List (String × JVal)) :
    jsEntries (mapVal f l) = mapVal f (jsEntries l) := by
  unfold jsEntries
  rw [mapVal_append]
  have h1 : (mapVal f l).filter (fun q => isArrayIndex q.1) =
      mapVal f (l.filter fun q => isArrayIndex q.1) := filter_mapVal f isArrayIndex l
  have h2 : (mapVal f l).filter (fun q => !isArrayIndex q.1) =
      mapVal f (l.filter fun q => !isArrayIndex q.1) := by
    have := filter_mapVal f (fun k => !isArrayIndex k) l
    simpa using this
  rw [h1, h2, sortByNum_mapVal f (l.filter fun q => isArrayIndex q.1)]

theorem arrayLikeFields_mapVal (f : JVal → JVal) (l : List (String × JVal)) :
    arrayLikeFields (mapVal f l) = arrayLikeFields l := by
  unfold arrayLikeFields
  rw [jsEntries_mapVal, mapVal_keys]

theorem jsEntries_no_index {α : Type} (l : List (String × α))
    (h : ∀ p ∈ l, isArrayIndex p.1 = false) : jsEntries l = l := by
  unfold jsEntries
  rw [show l.filter (fun p => isArrayIndex p.1) = [] from
    List.filter_eq_nil_iff.2 fun p hp => by simp [h p hp]]
  rw [show l.filter (fun p => !isArrayIndex p.1) = l from
    List.filter_eq_self.2 fun p hp => by simp [h p hp]]
  rfl

theorem jsEntries_deflateElems (es : List JVal) (i : Nat) (h : i + es.length ≤ 4294967295) :
    jsEntries (deflateElems es i) = deflateElems es i := by
  apply jsEntries_all_index
  · intro p hp
    have hm : p.1 ∈ (deflateElems es i).map Prod.fst := List.mem_map.2 ⟨p, hp, rfl⟩
    rw [deflateElems_keys es i] at hm
    obtain ⟨j, hj, he⟩ := List.mem_map.1 hm
    have hjr := List.mem_range'_1.1 hj
    rw [← he, isArrayIndex_natStr]
    simp only [decide_eq_true_eq]
    omega
  · have h1 : List.Pairwise (fun a b : String => keyNum a < keyNum b)
        ((deflateElems es i).map Prod.fst) := by
      rw [deflateElems_keys es i, List.pairwise_map]
      have h2 : List.Pairwise (· < ·) (List.range' i es.length) := by
        rw [List.range'_eq_map_range, List.pairwise_map]
        exact (List.pairwise_lt_range es.length).imp fun hab => by omega
      exact h2.imp fun {a b} hab => by
        rw [keyNum_natStr, keyNum_natStr]
        exact hab
    rw [List.pairwise_map] at h1
    exact h1

/-! ### `norm` fixes values already in enumeration order -/

mutual
theorem norm_id : ∀ (v : JVal), normedV v = true → norm v = v
  | .str s, _ => rfl
  | .num n, _ => rfl
  | .bool b, _ => rfl
  | .null, _ => rfl
  | .obj fs, h => by
    simp only [normedV, Bool.and_eq_true, decide_eq_true_eq] at h
    show JVal.obj (jsEntries (normFields fs)) = JVal.obj fs
    rw [normFields_id fs h.2, h.1]
  | .arr es, h => by
    simp only [normedV] at h
    show JVal.arr (normElems es) = JVal.arr es
    rw [normElems_id es h]

theorem normFields_id : ∀ (fs : List (String × JVal)), normedFields fs = true → normFields fs = fs
  | [], _ => rfl
  | (k, v) :: rest, h => by
    simp only [normedFields, Bool.and_eq_true] at h
    simp only [normFields]
    rw [norm_id v h.1, normFields_id rest h.2]

theorem normElems_id : ∀ (es : List JVal), normedElems es = true → normElems es = es
  | [], _ => rfl
  | v :: rest, h => by
    simp only [normedElems, Bool.and_eq_true] at h
    simp only [normElems]
    rw [norm_id v h.1, normElems_id rest h.2]
end

/-! ### Deflation preserves enumeration-order normality -/

mutual
theorem normedV_deflate : ∀ (v : JVal), goodFV v = true → normedV v = true →
    normedV (deflate v) = true
  | .str s, _, _ => rfl
  | .num n, hg, _ => by simp [goodFV] at hg
  | .bool b, hg, _ => by simp [goodFV] at hg
  | .null, hg, _ => by simp [goodFV] at hg
  | .obj fs, hg, hn => by
    simp only [goodFV, Bool.and_eq_true] at hg
    simp only [normedV, Bool.and_eq_true, decide_eq_true_eq] at hn
    simp only [deflate, normedV, Bool.and_eq_true, decide_eq_true_eq]
    refine ⟨?_, normedFields_deflateFields fs hg.2 hn.2⟩
    rw [deflateFields_eq_mapVal, jsEntries_mapVal, hn.1]
  | .arr es, hg, hn => by
    simp only [goodFV, Bool.and_eq_true, decide_eq_true_eq] at hg
    simp only [normedV] at hn
    simp only [deflate, normedV, Bool.and_eq_true, decide_eq_true_eq]
    refine ⟨jsEntries_deflateElems es 0 (by omega), ?_⟩
    exact normedElems_deflateElems es 0 hg.2 hn

theorem normedV_deflate_elem : ∀ (v : JVal), goodElem v = true → normedV v = true →
    normedV (deflate v) = true
  | .str s, _, _ => rfl
  | .num n, hg, _ => by simp [goodElem] at hg
  | .bool b, hg, _ => by simp [goodElem] at hg
  | .null, hg, _ => by simp [goodElem] at hg
  | .arr es, hg, _ => by simp [goodElem] at hg
  | .obj fs, hg, hn => by
    simp only [goodElem, Bool.and_eq_true] at hg
    simp only [normedV, Bool.and_eq_true, decide_eq_true_eq] at hn
    simp only [deflate, normedV, Bool.and_eq_true, decide_eq_true_eq]
    refine ⟨?_, normedFields_deflateFields fs hg.2 hn.2⟩
    rw [deflateFields_eq_mapVal, jsEntries_mapVal, hn.1]

theorem normedFields_deflateFields : ∀ (fs : List (String × JVal)),
    goodFields fs = true → normedFields fs = true → normedFields (deflateFields fs) = true
  | [], _, _ => rfl
  | (k, v) :: rest, hg, hn => by
    simp only [goodFields, Bool.and_eq_true] at hg
    simp only [normedFields, Bool.and_eq_true] at hn
    simp only [deflateFields, normedFields, Bool.and_eq_true]
    exact ⟨normedV_deflate v hg.1.2 hn.1, normedFields_deflateFields rest hg.2 hn.2⟩

theorem normedElems_deflateElems : ∀ (es : List JVal) (i : Nat),
    goodElems es = true → normedElems es = true → normedFields (deflateElems es i) = true
  | [], _, _, _ => rfl
  | e :: rest, i, hg, hn => by
    simp only [goodElems, Bool.and_eq_true] at hg
    simp only [normedElems, Bool.and_eq_true] at hn
    simp only [deflateElems, normedFields, Bool.and_eq_true]
    exact ⟨normedV_deflate_elem e hg.1 hn.1, normedElems_deflateElems rest (i + 1) hg.2 hn.2⟩
end

/-! ### Deflation produces arrow-free buildable trees -/

theorem deflateElems_keys_nodup (es : List JVal) (i : Nat) :
    ((deflateElems es i).map Prod.fst).Nodup := by
  rw [deflateElems_keys]
  have h2 : List.Pairwise (· < ·) (List.range' i es.length) := by
    rw [List.range'_eq_map_range, List.pairwise_map]
    exact (List.pairwise_lt_range es.length).imp fun hab => by omega
  exact List.Pairwise.map natStr
    (fun a b hab h => absurd (natStr_inj a b h) (Nat.ne_of_lt hab)) h2

mutual
theorem ftVal_deflate : ∀ (v : JVal), goodFV v = true → ftVal (deflate v) = true
  | .str s, _ => rfl
  | .num n, hg => by simp [goodFV] at hg
  | .bool b, hg => by simp [goodFV] at hg
  | .null, hg => by simp [goodFV] at hg
  | .obj fs, hg => by
    simp only [goodFV, Bool.and_eq_true, decide_eq_true_eq] at hg
    simp only [deflate, ftVal, Bool.and_eq_true, decide_eq_true_eq]
    refine ⟨⟨?_, ?_⟩, ftFields_deflateFields fs hg.2⟩
    · cases fs with
      | nil => simp at hg
      | cons p rest =>
        obtain ⟨k, v⟩ := p
        simp [deflateFields]
    · rw [deflateFields_eq_mapVal, mapVal_keys]
      exact hg.1.1.2
  | .arr es, hg => by
    simp only [goodFV, Bool.and_eq_true, decide_eq_true_eq] at hg
    simp only [deflate, ftVal, Bool.and_eq_true, decide_eq_true_eq]
    refine ⟨⟨?_, deflateElems_keys_nodup es 0⟩, ftFields_deflateElems es 0 hg.2⟩
    cases es with
    | nil => simp at hg
    | cons e rest => simp [deflateElems]

theorem ftVal_deflate_elem : ∀ (v : JVal), goodElem v = true → ftVal (deflate v) = true
  | .str s, _ => rfl
  | .num n, hg => by simp [goodElem] at hg
  | .bool b, hg => by simp [goodElem] at hg
  | .null, hg => by simp [goodElem] at hg
  | .arr es, hg => by simp [goodElem] at hg
  | .obj fs, hg => by
    simp only [goodElem, Bool.and_eq_true, decide_eq_true_eq] at hg
    simp only [deflate, ftVal, Bool.and_eq_true, decide_eq_true_eq]
    refine ⟨⟨?_, ?_⟩, ftFields_deflateFields fs hg.2⟩
    · cases fs with
      | nil => simp at hg
      | cons p rest =>
        obtain ⟨k, v⟩ := p
        simp [deflateFields]
    · rw [deflateFields_eq_mapVal, mapVal_keys]
      exact hg.1.2

theorem ftFields_deflateFields : ∀ (fs : List (String × JVal)),
    goodFields fs = true → ftFields (deflateFields fs) = true
  | [], _ => rfl
  | (k, v) :: rest, hg => by
    simp only [goodFields, Bool.and_eq_true] at hg
    simp only [deflateFields, ftFields, Bool.and_eq_true]
    refine ⟨⟨⟨hg.1.1.1, ?_⟩, ftVal_deflate v hg.1.2⟩, ftFields_deflateFields rest hg.2⟩
    have h2 := hg.1.1.2
    by_cases hk : k = ""
    · subst hk
      simp only [decide_eq_true_eq] at h2 ⊢
      have h3 : isStrB v = true := by simpa using h2
      cases v with
      | str s => simp [deflate, isStrB]
      | num n => simp [isStrB] at h3
      | bool b => simp [isStrB] at h3
      | null => simp [isStrB] at h3
      | obj fs2 => simp [isStrB] at h3
      | arr es2 => simp [isStrB] at h3
    · simp [hk]

theorem ftFields_deflateElems : ∀ (es : List JVal) (i : Nat),
    goodElems es = true → ftFields (deflateElems es i) = true
  | [], _, _ => rfl
  | e :: rest, i, hg => by
    simp only [goodElems, Bool.and_eq_true] at hg
    simp only [deflateElems, ftFields, Bool.and_eq_true]
    refine ⟨⟨⟨dotFreeK_natStr i, ?_⟩, ftVal_deflate_elem e hg.1⟩,
      ftFields_deflateElems rest (i + 1) hg.2⟩
    simp [natStr_ne_empty i]
end

/-! ### The expanded flat map of an arrow-free tree -/

theorem joinPath_ne (p k : String) (hp : ¬ p = "") : joinPath p k = p ++ "." ++ k := by
  unfold joinPath
  rw [if_neg fun he => hp ((String.isEmpty_iff p).1 he)]

theorem splitCh_ne_nil (sep : Char) : ∀ (cs : List Char), splitCh sep cs ≠ []
  | [] => by simp [splitCh]
  | c :: rest => by
    unfold splitCh
    by_cases h : c = sep
    · simp [h]
    · rw [if_neg h]
      cases hs : splitCh sep rest <;> simp

theorem jsSplit_ne_nil (sep : Char) (s : String) : jsSplit sep s ≠ [] := by
  unfold jsSplit
  intro h
  exact splitCh_ne_nil sep s.data (by simpa using h)

theorem setPath_obj : ∀ (segs : List String) (fs : List (String × JVal)) (leaf : JVal),
    segs ≠ [] → ∃ gs, setPath (.obj fs) segs leaf = .obj gs
  | [], _, _, h => absurd rfl h
  | [k], fs, leaf, _ => ⟨insertJs fs k leaf, rfl⟩
  | k :: k2 :: rest, fs, leaf, _ => by
    unfold setPath
    cases lookupJs fs k with
    | none => exact ⟨_, rfl⟩
    | some u =>
      cases htu : truthy u
      · exact ⟨insertJs fs k (setPath (.obj []) (k2 :: rest) leaf), by simp [htu]⟩
      · exact ⟨insertJs fs k (setPath u (k2 :: rest) leaf), by simp [htu]⟩

theorem mapPref_cons (p : String) (q : String × JVal) (rest : List (String × JVal)) :
    mapPref p (q :: rest) = (p ++ "." ++ q.1, q.2) :: mapPref p rest := rfl

theorem mapPref_append (p : String) (a b : List (String × JVal)) :
    mapPref p (a ++ b) = mapPref p a ++ mapPref p b := by
  simp [mapPref]

theorem mapPref_mapPref (p k : String) (l : List (String × JVal)) :
    mapPref p (mapPref k l) = mapPref (p ++ "." ++ k) l := by
  induction l with
  | nil => rfl
  | cons q rest ih =>
    obtain ⟨s, w⟩ := q
    rw [mapPref_cons, mapPref_cons, mapPref_cons, ih]
    simp [String.append_assoc]

theorem expandF_ne_nil : ∀ (gs : List (String × JVal)) (p : String), ftFields gs = true →
    gs ≠ [] → expandF p gs ≠ []
  | [], _, _, hne => absurd rfl hne
  | (s, w) :: rest, p, hft, _ => by
    simp only [ftFields, Bool.and_eq_true] at hft
    cases w with
    | obj gs2 =>
      simp only [expandF]
      have hv := hft.1.2
      simp only [ftVal, Bool.and_eq_true] at hv
      have hne2 : gs2 ≠ [] := by
        cases gs2 with
        | nil => simp at hv
        | cons q r => simp
      have := expandF_ne_nil gs2 (joinPath p s) hv.2 hne2
      intro hcontra
      rcases List.append_eq_nil.1 hcontra with ⟨h1, _⟩
      exact this h1
    | str s2 => simp [expandF]
    | num n => simp [expandF]
    | bool b => simp [expandF]
    | null => simp [expandF]
    | arr es => simp [expandF]

theorem expandF_pref : ∀ (gs : List (String × JVal)) (p : String), ftFields gs = true →
    ¬ p = "" → expandF p gs = mapPref p (expandF "" gs)
  | [], p, _, _ => by simp [expandF, mapPref]
  | (s, w) :: rest, p, hft, hp => by
    simp only [ftFields, Bool.and_eq_true] at hft
    cases w with
    | obj gs2 =>
      simp only [expandF]
      rw [mapPref_append]
      have hs : ¬ s = "" := by
        have h2 := hft.1.1.2
        simpa [isStrB] using h2
      have hv := hft.1.2
      simp only [ftVal, Bool.and_eq_true] at hv
      have hps : ¬ (p ++ "." ++ s) = "" := by
        intro he
        have hd := congrArg String.data he
        rw [data_concat_dot] at hd
        simp at hd
      rw [joinPath_empty, joinPath_ne p s hp]
      rw [expandF_pref gs2 (p ++ "." ++ s) hv.2 hps]
      rw [expandF_pref gs2 s hv.2 hs]
      rw [expandF_pref rest p hft.2 hp]
      rw [mapPref_mapPref]
    | str s2 =>
      simp only [expandF]
      rw [mapPref_append, joinPath_ne p s hp, joinPath_empty, expandF_pref rest p hft.2 hp]
      rfl
    | num n =>
      simp only [expandF]
      rw [mapPref_append, joinPath_ne p s hp, joinPath_empty, expandF_pref rest p hft.2 hp]
      rfl
    | bool b =>
      simp only [expandF]
      rw [mapPref_append, joinPath_ne p s hp, joinPath_empty, expandF_pref rest p hft.2 hp]
      rfl
    | null =>
      simp only [expandF]
      rw [mapPref_append, joinPath_ne p s hp, joinPath_empty, expandF_pref rest p hft.2 hp]
      rfl
    | arr es =>
      simp only [expandF]
      rw [mapPref_append, joinPath_ne p s hp, joinPath_empty, expandF_pref rest p hft.2 hp]
      rfl

/-! ### Folding a key group of the flat map into the built object -/

theorem setPath_step (fs : List (String × JVal)) (k s1 : String) (rest : List String)
    (w u : JVal) (hl : lookupJs fs k = some u) (ht : truthy u = true) :
    setPath (.obj fs) (k :: s1 :: rest) w = .obj (insertJs fs k (setPath u (s1 :: rest) w)) := by
  simp only [setPath]
  rw [hl]
  simp [ht]

theorem setPath_step_none (fs : List (String × JVal)) (k s1 : String) (rest : List String)
    (w : JVal) (hl : lookupJs fs k = none) :
    setPath (.obj fs) (k :: s1 :: rest) w =
      .obj (insertJs fs k (setPath (.obj []) (s1 :: rest) w)) := by
  simp only [setPath]
  rw [hl]

theorem mapPref_cons_pair (p s : String) (w : JVal) (rest : List (String × JVal)) :
    mapPref p ((s, w) :: rest) = (p ++ "." ++ s, w) :: mapPref p rest := rfl

theorem buildStep_concat (F : List (String × JVal)) (k s : String) (w : JVal)
    (hdf : dotFreeK k = true) :
    buildStep (.obj F) (k ++ "." ++ s, w) = setPath (.obj F) (k :: jsSplit '.' s) w := by
  simp [buildStep, jsSplit_concat k s hdf]

theorem jsSplit_exists_cons (s : String) : ∃ s1 rest, jsSplit '.' s = s1 :: rest := by
  cases hq : jsSplit '.' s with
  | nil => exact absurd hq (jsSplit_ne_nil '.' s)
  | cons a l => exact ⟨a, l, rfl⟩

theorem buildStep_obj (G : List (String × JVal)) (s : String) (w : JVal) :
    ∃ G2, buildStep (.obj G) (s, w) = .obj G2 := by
  have := setPath_obj (jsSplit '.' s) G w (jsSplit_ne_nil '.' s)
  simpa [buildStep] using this

theorem foldl_buildStep_pref : ∀ (sub F G : List (String × JVal)) (k : String),
    dotFreeK k = true → k ∉ F.map Prod.fst →
    List.foldl buildStep (.obj (F ++ [(k, .obj G)])) (mapPref k sub) =
      .obj (F ++ [(k, List.foldl buildStep (.obj G) sub)])
  | [], F, G, k, _, _ => by simp [mapPref]
  | (s, w) :: sub2, F, G, k, hdf, hF => by
    rw [mapPref_cons_pair]
    simp only [List.foldl_cons]
    obtain ⟨s1, rest2, hsr⟩ := jsSplit_exists_cons s
    have hstep : buildStep (.obj (F ++ [(k, .obj G)])) (k ++ "." ++ s, w)
        = .obj (F ++ [(k, buildStep (.obj G) (s, w))]) := by
      rw [buildStep_concat (F ++ [(k, JVal.obj G)]) k s w hdf, hsr]
      rw [setPath_step (F ++ [(k, JVal.obj G)]) k s1 rest2 w (JVal.obj G)
        (lookupJs_append_self F k (JVal.obj G) hF) rfl]
      rw [insertJs_append_last F k (JVal.obj G) (setPath (JVal.obj G) (s1 :: rest2) w) hF]
      have hbs : buildStep (JVal.obj G) (s, w) = setPath (JVal.obj G) (s1 :: rest2) w := by
        simp [buildStep, hsr]
      rw [hbs]
    rw [hstep]
    obtain ⟨G2, hG2⟩ := buildStep_obj G s w
    rw [hG2]
    rw [foldl_buildStep_pref sub2 F G2 k hdf hF]

theorem foldl_group : ∀ (sub F : List (String × JVal)) (k : String),
    dotFreeK k = true → k ∉ F.map Prod.fst → sub ≠ [] →
    List.foldl buildStep (.obj F) (mapPref k sub) =
      .obj (F ++ [(k, List.foldl buildStep (.obj []) sub)])
  | [], _, _, _, _, hne => absurd rfl hne
  | (s, w) :: sub2, F, k, hdf, hF, _ => by
    rw [mapPref_cons_pair]
    simp only [List.foldl_cons]
    obtain ⟨s1, rest2, hsr⟩ := jsSplit_exists_cons s
    have hstep : buildStep (.obj F) (k ++ "." ++ s, w)
        = .obj (F ++ [(k, buildStep (.obj []) (s, w))]) := by
      rw [buildStep_concat F k s w hdf, hsr]
      rw [setPath_step_none F k s1 rest2 w (lookupJs_eq_none F k hF)]
      rw [insertJs_fresh_append F k (setPath (.obj []) (s1 :: rest2) w) hF]
      have hbs : buildStep (.obj []) (s, w) = setPath (.obj []) (s1 :: rest2) w := by
        simp [buildStep, hsr]
      rw [hbs]
    rw [hstep]
    obtain ⟨G2, hG2⟩ := buildStep_obj [] s w
    rw [hG2]
    rw [foldl_buildStep_pref sub2 F G2 k hdf hF]

/-! ### Building the expanded flat map reconstructs the tree -/

theorem buildTree : ∀ (fs F : List (String × JVal)), ftFields fs = true →
    (fs.map Prod.fst).Nodup → (∀ k2 ∈ fs.map Prod.fst, k2 ∉ F.map Prod.fst) →
    List.foldl buildStep (.obj F) (expandF "" fs) = .obj (F ++ fs)
  | [], F, _, _, _ => by simp [expandF]
  | (k, v) :: rest, F, hft, hnd, hfr => by
    simp only [ftFields, Bool.and_eq_true] at hft
    simp only [List.map_cons, List.nodup_cons] at hnd
    have hkF : k ∉ F.map Prod.fst := hfr k (by simp)
    have hfr2 : ∀ k2 ∈ rest.map Prod.fst, k2 ∉ (F ++ [(k, v)]).map Prod.fst := by
      intro k2 hk2
      simp only [List.map_append, List.mem_append, not_or]
      refine ⟨hfr k2 (by simp [hk2]), ?_⟩
      simp only [List.map_cons, List.map_nil, List.mem_singleton]
      intro e
      rw [e] at hk2
      exact hnd.1 hk2
    cases v with
    | obj gs =>
      simp only [expandF]
      rw [joinPath_empty]
      have hv := hft.1.2
      simp only [ftVal, Bool.and_eq_true, decide_eq_true_eq] at hv
      have hk : ¬ k = "" := by
        have h2 := hft.1.1.2
        simpa [isStrB] using h2
      have hgs : gs ≠ [] := by
        cases gs with
        | nil => simp at hv
        | cons q r => simp
      rw [expandF_pref gs k hv.2 hk]
      rw [List.foldl_append]
      rw [foldl_group (expandF "" gs) F k hft.1.1.1 hkF (expandF_ne_nil gs "" hv.2 hgs)]
      rw [buildTree gs [] hv.2 hv.1.2 (by simp)]
      rw [List.nil_append]
      rw [buildTree rest (F ++ [(k, JVal.obj gs)]) hft.2 hnd.2 hfr2]
      rw [List.append_assoc]
      rfl
    | str s =>
      simp only [expandF]
      rw [joinPath_empty, List.singleton_append]
      simp only [List.foldl_cons]
      have hstep : buildStep (.obj F) (k, JVal.str s) = .obj (F ++ [(k, JVal.str s)]) := by
        rw [show buildStep (JVal.obj F) (k, JVal.str s)
            = setPath (JVal.obj F) (jsSplit '.' k) (JVal.str s) from rfl]
        rw [jsSplit_dotfree k hft.1.1.1]
        rw [show setPath (JVal.obj F) [k] (JVal.str s)
            = JVal.obj (insertJs F k (JVal.str s)) from rfl]
        rw [insertJs_fresh_append F k (JVal.str s) hkF]
      rw [hstep]
      rw [buildTree rest (F ++ [(k, JVal.str s)]) hft.2 hnd.2 hfr2]
      rw [List.append_assoc]
      rfl
    | num n => exact absurd hft.1.2 (by simp [ftVal])
    | bool b => exact absurd hft.1.2 (by simp [ftVal])
    | null => exact absurd hft.1.2 (by simp [ftVal])
    | arr es => exact absurd hft.1.2 (by simp [ftVal])

/-! ### Keys of the expanded flat map -/

theorem concat_dot_inj (k a b : String) (h : k ++ "." ++ a = k ++ "." ++ b) : a = b := by
  have hd := congrArg String.data h
  rw [data_concat_dot, data_concat_dot] at hd
  have h2 : ('.' :: a.data) = ('.' :: b.data) := List.append_cancel_left hd
  have h3 : a.data = b.data := by simpa using h2
  rw [← string_mk_data a, ← string_mk_data b, h3]

theorem mapPref_keys_eq (k : String) : ∀ (l : List (String × JVal)),
    (mapPref k l).map Prod.fst = (l.map Prod.fst).map (fun x => k ++ "." ++ x)
  | [] => rfl
  | (s, w) :: rest => by
    rw [mapPref_cons_pair]
    simp only [List.map_cons]
    rw [mapPref_keys_eq k rest]

theorem mapPref_keys_nodup (k : String) (l : List (String × JVal))
    (h : (l.map Prod.fst).Nodup) : ((mapPref k l).map Prod.fst).Nodup := by
  rw [mapPref_keys_eq]
  exact h.map fun a b hab => concat_dot_inj k a b hab

theorem mem_mapPref (k x : String) (l : List (String × JVal))
    (hx : x ∈ (mapPref k l).map Prod.fst) : ∃ y, x = k ++ "." ++ y := by
  rw [mapPref_keys_eq] at hx
  obtain ⟨y, hy, he⟩ := List.mem_map.1 hx
  exact ⟨y, he.symm⟩

theorem expandF_keys_no_index : ∀ (fs : List (String × JVal)), ftFields fs = true →
    (∀ p ∈ fs, isArrayIndex p.1 = false) →
    ∀ q ∈ expandF "" fs, isArrayIndex q.1 = false
  | [], _, _, q, hq => by simp [expandF] at hq
  | (k, v) :: rest, hft, hni, q, hq => by
    simp only [ftFields, Bool.and_eq_true] at hft
    cases v with
    | obj gs =>
      rw [show expandF "" ((k, JVal.obj gs) :: rest)
          = expandF (joinPath "" k) gs ++ expandF "" rest from by simp only [expandF]] at hq
      rw [joinPath_empty] at hq
      have hv := hft.1.2
      simp only [ftVal, Bool.and_eq_true, decide_eq_true_eq] at hv
      have hk : ¬ k = "" := by
        have h2 := hft.1.1.2
        simpa [isStrB] using h2
      rw [expandF_pref gs k hv.2 hk] at hq
      rcases List.mem_append.1 hq with h1 | h2
      · obtain ⟨y, hy⟩ := mem_mapPref k q.1 (expandF "" gs) (List.mem_map.2 ⟨q, h1, rfl⟩)
        rw [hy]
        exact isArrayIndex_of_dot _ (contains_concat_dot k y)
      · exact expandF_keys_no_index rest hft.2
          (fun p hp => hni p (List.mem_cons_of_mem _ hp)) q h2
    | str s =>
      rw [show expandF "" ((k, JVal.str s) :: rest)
          = [(joinPath "" k, JVal.str s)] ++ expandF "" rest from by simp only [expandF]] at hq
      rw [joinPath_empty] at hq
      rcases List.mem_append.1 hq with h1 | h2
      · have he : q = (k, JVal.str s) := by simpa using h1
        rw [he]
        exact hni (k, JVal.str s) (by simp)
      · exact expandF_keys_no_index rest hft.2
          (fun p hp => hni p (List.mem_cons_of_mem _ hp)) q h2
    | num n => exact absurd hft.1.2 (by simp [ftVal])
    | bool b => exact absurd hft.1.2 (by simp [ftVal])
    | null => exact absurd hft.1.2 (by simp [ftVal])
    | arr es => exact absurd hft.1.2 (by simp [ftVal])

theorem expandF_keys_fsg : ∀ (fs : List (String × JVal)), ftFields fs = true →
    ∀ x ∈ (expandF "" fs).map Prod.fst, fsg x ∈ fs.map Prod.fst
  | [], _, x, hx => by simp [expandF] at hx
  | (k, v) :: rest, hft, x, hx => by
    simp only [ftFields, Bool.and_eq_true] at hft
    cases v with
    | obj gs =>
      rw [show expandF "" ((k, JVal.obj gs) :: rest)
          = expandF (joinPath "" k) gs ++ expandF "" rest from by simp only [expandF]] at hx
      rw [joinPath_empty] at hx
      have hv := hft.1.2
      simp only [ftVal, Bool.and_eq_true, decide_eq_true_eq] at hv
      have hk : ¬ k = "" := by
        have h2 := hft.1.1.2
        simpa [isStrB] using h2
      rw [expandF_pref gs k hv.2 hk] at hx
      rw [List.map_append] at hx
      rcases List.mem_append.1 hx with h1 | h2
      · obtain ⟨y, hy⟩ := mem_mapPref k x (expandF "" gs) h1
        rw [hy, fsg_concat k y hft.1.1.1]
        simp
      · exact List.mem_cons_of_mem _ (expandF_keys_fsg rest hft.2 x h2)
    | str s =>
      rw [show expandF "" ((k, JVal.str s) :: rest)
          = [(joinPath "" k, JVal.str s)] ++ expandF "" rest from by simp only [expandF]] at hx
      rw [joinPath_empty] at hx
      rw [List.map_append] at hx
      rcases List.mem_append.1 hx with h1 | h2
      · have he : x = k := by simpa using h1
        rw [he, fsg_dotfree k hft.1.1.1]
        simp
      · exact List.mem_cons_of_mem _ (expandF_keys_fsg rest hft.2 x h2)
    | num n => exact absurd hft.1.2 (by simp [ftVal])
    | bool b => exact absurd hft.1.2 (by simp [ftVal])
    | null => exact absurd hft.1.2 (by simp [ftVal])
    | arr es => exact absurd hft.1.2 (by simp [ftVal])

theorem expandF_keys_nodup : ∀ (fs : List (String × JVal)), ftFields fs = true →
    (fs.map Prod.fst).Nodup → ((expandF "" fs).map Prod.fst).Nodup
  | [], _, _ => by simp [expandF]
  | (k, v) :: rest, hft, hnd => by
    simp only [ftFields, Bool.and_eq_true] at hft
    simp only [List.map_cons, List.nodup_cons] at hnd
    cases v with
    | obj gs =>
      rw [show expandF "" ((k, JVal.obj gs) :: rest)
          = expandF (joinPath "" k) gs ++ expandF "" rest from by simp only [expandF]]
      rw [joinPath_empty]
      have hv := hft.1.2
      simp only [ftVal, Bool.and_eq_true, decide_eq_true_eq] at hv
      have hk : ¬ k = "" := by
        have h2 := hft.1.1.2
        simpa [isStrB] using h2
      rw [expandF_pref gs k hv.2 hk]
      rw [List.map_append]
      rw [List.nodup_append]
      refine ⟨mapPref_keys_nodup k (expandF "" gs) (expandF_keys_nodup gs hv.2 hv.1.2),
        expandF_keys_nodup rest hft.2 hnd.2, ?_⟩
      intro x h1 h2
      obtain ⟨y, hy⟩ := mem_mapPref k x (expandF "" gs) h1
      have h3 := expandF_keys_fsg rest hft.2 x h2
      rw [hy, fsg_concat k y hft.1.1.1] at h3
      exact hnd.1 h3
    | str s =>
      rw [show expandF "" ((k, JVal.str s) :: rest)
          = [(joinPath "" k, JVal.str s)] ++ expandF "" rest from by simp only [expandF]]
      rw [joinPath_empty]
      rw [List.map_append]
      rw [List.nodup_append]
      refine ⟨by simp, expandF_keys_nodup rest hft.2 hnd.2, ?_⟩
      intro x h1 h2
      have he : x = k := by simpa using h1
      have h3 := expandF_keys_fsg rest hft.2 x h2
      rw [he, fsg_dotfree k hft.1.1.1] at h3
      exact hnd.1 h3
    | num n => exact absurd hft.1.2 (by simp [ftVal])
    | bool b => exact absurd hft.1.2 (by simp [ftVal])
    | null => exact absurd hft.1.2 (by simp [ftVal])
    | arr es => exact absurd hft.1.2 (by simp [ftVal])

/-! ### Flattening an arrow-free tree yields its expanded flat map -/

theorem flattenList_expand : ∀ (gs : List (String × JVal)) (pre : String) (acc : FlatMap),
    ftFields gs = true → ((expandF pre gs).map Prod.fst).Nodup →
    (∀ x ∈ (expandF pre gs).map Prod.fst, x ∉ acc.map Prod.fst) →
    flattenList gs pre acc = .ok (acc ++ expandF pre gs)
  | [], pre, acc, _, _, _ => by simp [flattenList, expandF]
  | (k, v) :: rest, pre, acc, hft, hnd, hfr => by
    simp only [ftFields, Bool.and_eq_true] at hft
    cases v with
    | obj gs2 =>
      have hv := hft.1.2
      simp only [ftVal, Bool.and_eq_true, decide_eq_true_eq] at hv
      have hexp : expandF pre ((k, JVal.obj gs2) :: rest)
          = expandF (joinPath pre k) gs2 ++ expandF pre rest := by simp only [expandF]
      rw [hexp] at hnd hfr ⊢
      rw [List.map_append, List.nodup_append] at hnd
      have hsub : flattenObject (JVal.obj gs2) (joinPath pre k)
          = .ok (expandF (joinPath pre k) gs2) := by
        rw [show flattenObject (JVal.obj gs2) (joinPath pre k)
            = flattenList gs2 (joinPath pre k) [] from rfl]
        rw [flattenList_expand gs2 (joinPath pre k) [] hv.2 hnd.1 (by simp)]
        rfl
      rw [show flattenList ((k, JVal.obj gs2) :: rest) pre acc
          = (match flattenObject (JVal.obj gs2) (joinPath pre k) with
             | .error e => .error e
             | .ok sub => flattenList rest pre (mergeJs acc sub)) from by
        simp [flattenList, isObjType]]
      rw [hsub]
      rw [show (match (Except.ok (expandF (joinPath pre k) gs2) : Except Unit FlatMap) with
          | .error e => .error e
          | .ok sub => flattenList rest pre (mergeJs acc (expandF (joinPath pre k) gs2)))
          = flattenList rest pre (mergeJs acc (expandF (joinPath pre k) gs2)) from rfl]
      rw [mergeJs_append (expandF (joinPath pre k) gs2) acc hnd.1
        (fun x hx => hfr x (by rw [List.map_append]; exact List.mem_append_left _ hx))]
      rw [flattenList_expand rest pre (acc ++ expandF (joinPath pre k) gs2) hft.2 hnd.2.1 ?hfr3]
      · rw [List.append_assoc]
      case hfr3 =>
        intro x hx
        rw [List.map_append, List.mem_append]
        rintro (h1 | h2)
        · exact hfr x (by rw [List.map_append]; exact List.mem_append_right _ hx) h1
        · exact hnd.2.2 h2 hx
    | str s =>
      have hexp : expandF pre ((k, JVal.str s) :: rest)
          = [(joinPath pre k, JVal.str s)] ++ expandF pre rest := by simp only [expandF]
      rw [hexp] at hnd hfr ⊢
      rw [List.map_append, List.nodup_append] at hnd
      rw [show flattenList ((k, JVal.str s) :: rest) pre acc
          = flattenList rest pre (insertJs acc (joinPath pre k) (JVal.str s)) from by
        simp [flattenList, isObjType]]
      rw [insertJs_fresh_append acc (joinPath pre k) (JVal.str s)
        (hfr (joinPath pre k) (by simp))]
      rw [flattenList_expand rest pre (acc ++ [(joinPath pre k, JVal.str s)]) hft.2 hnd.2.1 ?hfr4]
      · rw [List.append_assoc]
      case hfr4 =>
        intro x hx
        rw [List.map_append, List.mem_append]
        rintro (h1 | h2)
        · exact hfr x (by rw [List.map_append]; exact List.mem_append_right _ hx) h1
        · exact hnd.2.2 h2 hx
    | num n => exact absurd hft.1.2 (by simp [ftVal])
    | bool b => exact absurd hft.1.2 (by simp [ftVal])
    | null => exact absurd hft.1.2 (by simp [ftVal])
    | arr es => exact absurd hft.1.2 (by simp [ftVal])

/-! ### Array conversion undoes deflation on good trees -/

mutual
theorem convValue_deflate : ∀ (v : JVal), goodFV v = true → convValue (deflate v) = .ok v
  | .str s, _ => rfl
  | .num n, hg => by simp [goodFV] at hg
  | .bool b, hg => by simp [goodFV] at hg
  | .null, hg => by simp [goodFV] at hg
  | .obj fs, hg => by
    simp only [goodFV, Bool.and_eq_true, decide_eq_true_eq] at hg
    have hal : arrayLikeFields (deflateFields fs) = false := by
      rw [deflateFields_eq_mapVal, arrayLikeFields_mapVal]
      simpa using hg.1.2
    rw [show convValue (deflate (JVal.obj fs))
        = (if arrayLikeFields (deflateFields fs) then
             match convRootVals (deflateFields fs) with
             | .error e => .error e
             | .ok vs => Except.ok (JVal.arr vs)
           else
             match convFields (deflateFields fs) with
             | .error e => .error e
             | .ok gs => Except.ok (JVal.obj gs)) from rfl]
    rw [if_neg (by simp [hal])]
    rw [convFields_deflateFields fs hg.2]
  | .arr es, hg => by
    simp only [goodFV, Bool.and_eq_true, decide_eq_true_eq] at hg
    have hal : arrayLikeFields (deflateElems es 0) = true := by
      unfold arrayLikeFields
      rw [jsEntries_deflateElems es 0 (by omega)]
      rw [deflateElems_keys]
      exact arrayLikeKeys_range es.length 0
    rw [show convValue (deflate (JVal.arr es))
        = (if arrayLikeFields (deflateElems es 0) then
             match convRootVals (deflateElems es 0) with
             | .error e => .error e
             | .ok vs => Except.ok (JVal.arr vs)
           else
             match convFields (deflateElems es 0) with
             | .error e => .error e
             | .ok gs => Except.ok (JVal.obj gs)) from rfl]
    rw [if_pos (by simp [hal])]
    rw [convRootVals_deflateElems es 0 hg.2]

theorem convertRoot_deflate_elem : ∀ (e : JVal), goodElem e = true →
    convertRoot (deflate e) = .ok e
  | .str s, _ => rfl
  | .num n, hg => by simp [goodElem] at hg
  | .bool b, hg => by simp [goodElem] at hg
  | .null, hg => by simp [goodElem] at hg
  | .arr es, hg => by simp [goodElem] at hg
  | .obj fs, hg => by
    simp only [goodElem, Bool.and_eq_true, decide_eq_true_eq] at hg
    rw [show convertRoot (deflate (JVal.obj fs))
        = (match convFields (deflateFields fs) with
           | .error e => .error e
           | .ok gs => Except.ok (JVal.obj gs)) from rfl]
    rw [convFields_deflateFields fs hg.2]

theorem convFields_deflateFields : ∀ (fs : List (String × JVal)), goodFields fs = true →
    convFields (deflateFields fs) = .ok fs
  | [], _ => rfl
  | (k, v) :: rest, hg => by
    simp only [goodFields, Bool.and_eq_true] at hg
    rw [show convFields (deflateFields ((k, v) :: rest))
        = (match convValue (deflate v) with
           | .error e => .error e
           | .ok v2 =>
             match convFields (deflateFields rest) with
             | .error e => .error e
             | .ok r2 => Except.ok ((k, v2) :: r2)) from rfl]
    rw [convValue_deflate v hg.1.2, convFields_deflateFields rest hg.2]

theorem convRootVals_deflateElems : ∀ (es : List JVal) (i : Nat), goodElems es = true →
    convRootVals (deflateElems es i) = .ok es
  | [], _, _ => rfl
  | e :: rest, i, hg => by
    simp only [goodElems, Bool.and_eq_true] at hg
    rw [show convRootVals (deflateElems (e :: rest) i)
        = (match convertRoot (deflate e) with
           | .error e2 => .error e2
           | .ok v2 =>
             match convRootVals (deflateElems rest (i + 1)) with
             | .error e2 => .error e2
             | .ok r2 => Except.ok (v2 :: r2)) from rfl]
    rw [convertRoot_deflate_elem e hg.1, convRootVals_deflateElems rest (i + 1) hg.2]
end

/-! ## Claim C1: the flatten/unflatten round trip -/

/-- C1 (counterexample): the claim promises the identity round trip for every
tree without sequences whose segments are dot-free and whose leaves are text,
but the sequence-free tree `{a: {"0": "x"}}` flattens to `{"a.0": "x"}` and
unflattens to `{a: ["x"]}`: `convertArrayLikeObjects` re-infers a sequence
that was never there. -/
theorem c1_counterexample :
    flattenObject (JVal.obj [("a", JVal.obj [("0", JVal.str "x")])]) "" =
        .ok [("a.0", JVal.str "x")] ∧
      unflattenObject [("a.0", JVal.str "x")] = .ok (JVal.obj [("a", JVal.arr [JVal.str "x"])]) ∧
      JVal.obj [("a", JVal.arr [JVal.str "x"])] ≠
        JVal.obj [("a", JVal.obj [("0", JVal.str "x")])] := by
  refine ⟨by decide, by decide, by decide⟩

/-- C1 (amended): the round trip `unflattenObject (flattenObject t)` is the
identity on every document `t` that is a mapping, stored in enumeration
order, whose keys are duplicate-free, dot-free and not array indices, whose
interior mappings are non-empty, duplicate-free and not array-like (no
contiguous-`parseInt` key pattern), whose sequences are non-empty, shorter
than `2^32 - 1` and nowhere directly nested inside another sequence, whose
leaves are text, and whose empty-string keys hold only text leaves.
Sequences anywhere below the root are re-inferred exactly; sequences at the
root itself are not restored (`convertArrayLikeObjects` never converts its
argument), and mappings that merely look array-like are turned into
sequences, so those trees are excluded. -/
theorem flatten_unflatten_roundtrip (t : JVal) (h1 : goodRoot t = true)
    (h2 : normedV t = true) :
    ∃ m, flattenObject t "" = .ok m ∧ unflattenObject m = .ok t := by
  cases t with
  | str s => simp [goodRoot] at h1
  | num n => simp [goodRoot] at h1
  | bool b => simp [goodRoot] at h1
  | null => simp [goodRoot] at h1
  | arr es => simp [goodRoot] at h1
  | obj fs =>
    simp only [goodRoot, Bool.and_eq_true, decide_eq_true_eq, List.all_eq_true] at h1
    obtain ⟨⟨hnd, hgf⟩, hni⟩ := h1
    have hft : ftFields (deflateFields fs) = true := ftFields_deflateFields fs hgf
    have hkeys : (deflateFields fs).map Prod.fst = fs.map Prod.fst := by
      rw [deflateFields_eq_mapVal, mapVal_keys]
    have hndd : ((deflateFields fs).map Prod.fst).Nodup := by
      rw [hkeys]
      exact hnd
    have hnid : ∀ p ∈ deflateFields fs, isArrayIndex p.1 = false := by
      intro p hp
      rw [deflateFields_eq_mapVal] at hp
      obtain ⟨q, hq, he⟩ :=
        List.mem_map.1 (show p ∈ List.map (fun q => (q.1, deflate q.2)) fs from hp)
      rw [← he]
      simpa using hni q hq
    have hflat : flattenObject (JVal.obj fs) "" = .ok (expandF "" (deflateFields fs)) := by
      rw [← flattenObject_deflate (JVal.obj fs) ""]
      rw [show flattenObject (deflate (JVal.obj fs)) ""
          = flattenList (deflateFields fs) "" [] from rfl]
      rw [flattenList_expand (deflateFields fs) "" [] hft
        (expandF_keys_nodup (deflateFields fs) hft hndd) (by simp)]
      rfl
    refine ⟨expandF "" (deflateFields fs), hflat, ?_⟩
    unfold unflattenObject
    have hbf : buildFlat (expandF "" (deflateFields fs))
        = JVal.obj (deflateFields fs) := by
      rw [show buildFlat (expandF "" (deflateFields fs))
          = List.foldl buildStep (.obj []) (jsEntries (expandF "" (deflateFields fs)))
          from rfl]
      rw [jsEntries_no_index (expandF "" (deflateFields fs))
        (expandF_keys_no_index (deflateFields fs) hft hnid)]
      rw [buildTree (deflateFields fs) [] hft hndd (by simp)]
      rw [List.nil_append]
    rw [hbf]
    have hnormd : normedV (JVal.obj (deflateFields fs)) = true := by
      simp only [normedV, Bool.and_eq_true, decide_eq_true_eq] at h2 ⊢
      refine ⟨?_, normedFields_deflateFields fs hgf h2.2⟩
      rw [deflateFields_eq_mapVal, jsEntries_mapVal, h2.1]
    rw [norm_id (JVal.obj (deflateFields fs)) hnormd]
    rw [show convertRoot (JVal.obj (deflateFields fs))
        = (match convFields (deflateFields fs) with
           | .error e => .error e
           | .ok gs => Except.ok (JVal.obj gs)) from rfl]
    rw [convFields_deflateFields fs hgf]

/-- C1 (witness): the amended round-trip theorem applied to the concrete
document `{menu: {items: ["a", "b"], title: "T"}}`, which contains a
sequence below the root. -/
theorem flatten_unflatten_roundtrip_witness :
    goodRoot (JVal.obj [("menu", JVal.obj [("items", JVal.arr [JVal.str "a", JVal.str "b"]),
        ("title", JVal.str "T")])]) = true ∧
      normedV (JVal.obj [("menu", JVal.obj [("items", JVal.arr [JVal.str "a", JVal.str "b"]),
        ("title", JVal.str "T")])]) = true ∧
      ∃ m, flattenObject (JVal.obj [("menu", JVal.obj [("items",
          JVal.arr [JVal.str "a", JVal.str "b"]), ("title", JVal.str "T")])]) "" = .ok m ∧
        unflattenObject m = .ok (JVal.obj [("menu", JVal.obj [("items",
          JVal.arr [JVal.str "a", JVal.str "b"]), ("title", JVal.str "T")])]) :=
  ⟨by decide, by decide,
    flatten_unflatten_roundtrip
      (JVal.obj [("menu", JVal.obj [("items", JVal.arr [JVal.str "a", JVal.str "b"]),
        ("title", JVal.str "T")])]) (by decide) (by decide)⟩
